import Mathlib

/-!
Verification of the receipt-parsing core of the `receipt-parser` repository
(`receipt_cleaner.py`, `models.py`, `config.py`, `final_main.py`).

The Python code is shallowly embedded: strings are Lean `String`s (handled at
the `List Char` level), Python `Decimal` values become an inductive `PyDec`
over exact rationals, exceptions become `Except`, and each regular expression
of the pattern library is hand-compiled to a deterministic matcher that
implements the backtracking semantics of the corresponding Python pattern.
The embedding targets ASCII text (the whole pipeline of the repository only
produces ASCII-relevant distinctions); Python's Unicode whitespace set is
modelled by its ASCII members plus U+0085.
-/

namespace ReceiptCore

/-- Python whitespace (`str.isspace`, `str.split()`, `str.strip()`, and the
regex class `\s` all use the same predicate in CPython); restricted to the
ASCII range plus U+0085. -/
def wsB (c : Char) : Bool :=
  c = ' ' || c = '\t' || c = '\n' || c = '\r' || c = '\x0b' || c = '\x0c' ||
  c = '\x1c' || c = '\x1d' || c = '\x1e' || c = '\x1f' || c = '\x85'

/-- ASCII decimal digit, the regex class `\d` and `str.isdigit` on ASCII. -/
def isDigitB (c : Char) : Bool := c.isDigit

/-- The regex class `\w` (word character) on ASCII: letter, digit or `_`. -/
def isWordB (c : Char) : Bool := c.isAlpha || c.isDigit || c = '_'

/-- Python `str.strip()` on a character list. -/
def stripWsL (l : List Char) : List Char :=
  ((l.dropWhile wsB).reverse.dropWhile wsB).reverse

/-- Python `str.strip()`. -/
def pyStrip (s : String) : String := ⟨stripWsL s.data⟩

/-- Replace every maximal run of characters satisfying `p` by the single
character `r` (used for `re.sub` with patterns `\s+`-like classes, and the
whitespace collapsing performed by `" ".join(s.split())`).  The Boolean
argument records whether the previous character belonged to a run. -/
def collapseRunsAux (p : Char → Bool) (r : Char) : Bool → List Char → List Char
  | _, [] => []
  | inRun, c :: cs =>
    if p c then
      if inRun then collapseRunsAux p r true cs
      else r :: collapseRunsAux p r true cs
    else c :: collapseRunsAux p r false cs

/-- Replace every maximal run of characters satisfying `p` by `r`. -/
def collapseRuns (p : Char → Bool) (r : Char) (l : List Char) : List Char :=
  collapseRunsAux p r false l

/-- Python `str.title()`: a letter is uppercased when the previous character is
not cased (not a letter, on ASCII), lowercased otherwise; the Boolean argument
records whether the previous character was cased. -/
def titleL : Bool → List Char → List Char
  | _, [] => []
  | prevCased, c :: cs =>
    if c.isAlpha then (if prevCased then c.toLower else c.toUpper) :: titleL true cs
    else c :: titleL false cs

/-- Numeric value of a list of ASCII digits (most significant first). -/
def natOfDigits (l : List Char) : Nat :=
  l.foldl (fun a c => 10 * a + (c.toNat - 48)) 0

/-- Python `str.replace(a, repl)` for a single-character pattern: every
occurrence of `a` is replaced by `repl`, scanning left to right. -/
def replaceChar (a : Char) (repl : List Char) : List Char → List Char
  | [] => []
  | c :: cs => (if c = a then repl else [c]) ++ replaceChar a repl cs

/-- Python `str.replace('USD', '')`: remove non-overlapping occurrences of
`USD`, scanning left to right (a `U` not followed by `SD` is kept and the
scan advances one character). -/
def replaceUSD : List Char → List Char
  | [] => []
  | 'U' :: 'S' :: 'D' :: rest => replaceUSD rest
  | c :: cs => c :: replaceUSD cs

/-- Decidable equality of `Except` values, for evaluating the embedded
functions on concrete inputs. -/
instance {ε α : Type} [DecidableEq ε] [DecidableEq α] : DecidableEq (Except ε α) := by
  intro a b
  cases a <;> cases b
  case error.error e f =>
    exact if h : e = f then isTrue (by rw [h]) else isFalse (fun hh => h (by cases hh; rfl))
  case error.ok e f => exact isFalse (fun hh => by cases hh)
  case ok.error e f => exact isFalse (fun hh => by cases hh)
  case ok.ok e f =>
    exact if h : e = f then isTrue (by rw [h]) else isFalse (fun hh => h (by cases hh; rfl))

/-! ## The Python `Decimal` model

`models.py` and `receipt_cleaner.py` use `decimal.Decimal`.  A decimal value
is either finite (an exact rational), an infinity, or a NaN.  The string
constructor follows CPython's numeric-string grammar: optional surrounding
whitespace, underscores that must sit between two digits, an optional sign,
then either `digits [. digits] | . digits` with an optional exponent, or the
case-insensitive words `Inf`/`Infinity`, or `NaN`/`sNaN` with optional
diagnostic digits. -/

inductive PyDec where
  | fin (q : ℚ)
  | pinf
  | ninf
  | nanv
deriving DecidableEq, Repr

/-- Case-insensitive (ASCII) equality of a character list with a lowercase
pattern. -/
def ciEq (l : List Char) (pat : List Char) : Bool :=
  l.map Char.toLower = pat

/-- Does `l` start (case-insensitively) with lowercase pattern `pat`, and is
the remainder a (possibly empty) run of digits?  This is the shape of the
`NaN`-with-diagnostic bodies `nan[digits]` and `snan[digits]`. -/
def nanTail (l : List Char) (pat : List Char) : Bool :=
  pat.isPrefixOf (l.map Char.toLower) && ((l.map Char.toLower).drop pat.length).all isDigitB

/-- Underscore placement check of CPython number parsing: every `_` must be
immediately preceded and followed by a digit. -/
def underscoresOk : List Char → Bool
  | [] => true
  | '_' :: _ => false
  | c :: cs => underscoresOkAux c cs
where
  underscoresOkAux : Char → List Char → Bool
    | _, [] => true
    | prev, '_' :: rest =>
      match rest with
      | [] => false
      | nxt :: _ => isDigitB prev && isDigitB nxt && underscoresOkAux '_' rest
    | _, c :: cs => underscoresOkAux c cs

/-- Parse an exponent tail `[sign] digits` (the part after `e`/`E`). -/
def parseExpTail (l : List Char) : Option ℤ :=
  match l with
  | '+' :: t => if t ≠ [] && t.all isDigitB then some (natOfDigits t : ℤ) else none
  | '-' :: t => if t ≠ [] && t.all isDigitB then some (-(natOfDigits t : ℤ)) else none
  | t => if t ≠ [] && t.all isDigitB then some (natOfDigits t : ℤ) else none

/-- The exact rational `m / 10^scale * 10^e`, built with `mkRat` so that it
evaluates by kernel reduction. -/
def decValue (m : Nat) (scale : Nat) (e : ℤ) : ℚ :=
  if 0 ≤ e then mkRat (m * 10 ^ e.toNat) (10 ^ scale)
  else mkRat m (10 ^ scale * 10 ^ (-e).toNat)

/-- Parse the mantissa `digits [. digits] | . digits` together with an
optional `e`/`E` exponent, returning the exact rational value. -/
def parseFiniteBody (l : List Char) : Option ℚ :=
  let mant := l.takeWhile (fun c => c ≠ 'e' && c ≠ 'E')
  let rest := l.dropWhile (fun c => c ≠ 'e' && c ≠ 'E')
  let exp? : Option ℤ :=
    match rest with
    | [] => some 0
    | _ :: t => parseExpTail t
  match exp? with
  | none => none
  | some e =>
    let i := mant.takeWhile isDigitB
    let r := mant.dropWhile isDigitB
    match r with
    | [] => if i = [] then none else some (decValue (natOfDigits i) 0 e)
    | '.' :: f =>
      if f.all isDigitB && (i ≠ [] || f ≠ []) then
        some (decValue (natOfDigits (i ++ f)) f.length e)
      else none
    | _ => none

/-- The numeric-string body after the optional sign: the case-insensitive
words `Inf`/`Infinity`, `NaN`/`sNaN` with optional diagnostic digits, or a
finite mantissa with optional exponent. -/
def decBody (sign : Bool) (body : List Char) : Option PyDec :=
  if ciEq body ['i', 'n', 'f'] || ciEq body ['i', 'n', 'f', 'i', 'n', 'i', 't', 'y'] then
    some (if sign then PyDec.ninf else PyDec.pinf)
  else if nanTail body ['n', 'a', 'n'] || nanTail body ['s', 'n', 'a', 'n'] then
    some PyDec.nanv
  else
    match parseFiniteBody body with
    | some q => some (PyDec.fin (if sign then -q else q))
    | none => none

/-- The `Decimal(str)` constructor: `none` models a raised
`decimal.InvalidOperation` from an unparsable numeric string.  Surrounding
whitespace is stripped, well-placed underscores removed, an optional sign
taken, and the body parsed. -/
def decOfString? (s : String) : Option PyDec :=
  if underscoresOk (stripWsL s.data) then
    match (stripWsL s.data).filter (fun c => c ≠ '_') with
    | [] => none
    | '-' :: t => decBody true t
    | '+' :: t => decBody false t
    | l => decBody false l
  else none

/-- Python's `in` operator on strings: contiguous-substring test. -/
def containsSub (pat : List Char) : List Char → Bool
  | [] => pat.isPrefixOf []
  | c :: cs => pat.isPrefixOf (c :: cs) || containsSub pat cs

/-! ## Configuration (`config.py`, `ParsingConfig` defaults)

`AmountParser.__init__` builds `Decimal(str(settings.parsing.min_amount))` and
`Decimal(str(settings.parsing.max_amount))`; with the defaults `0.01` and
`10000.0` these are the exact rationals below. -/

/-- `ParsingConfig.min_amount` default, as an exact rational. -/
def min_amount : ℚ := mkRat 1 100

/-- `ParsingConfig.max_amount` default, as an exact rational. -/
def max_amount : ℚ := 10000

/-- `ParsingConfig.ignore_words` default.  The Python value is a `set`; only
membership is ever used, so a list is an adequate model. -/
def ignore_words : List String :=
  ["tax", "total", "subtotal", "tip", "gratuity",
   "discount", "coupon", "credit", "change"]

/-! ## `AmountParser` (`receipt_cleaner.py` lines 192-254) -/

/-- `AmountParser._clean_amount_string`: strip `$` and `USD`, surrounding
whitespace and thousands commas; when no decimal point is present, the string
is longer than 2, its last two characters are digits and the length is at most
4, insert a decimal point two digits from the end. -/
def clean_amount_string (s : String) : String :=
  let cleaned := stripWsL (replaceUSD (replaceChar '$' [] s.data))
  let cleaned := replaceChar ',' [] cleaned
  let n := cleaned.length
  if ('.' ∉ cleaned ∧ n > 2) ∧ ((cleaned.drop (n - 2)).all isDigitB ∧ n ≤ 4) then
    ⟨cleaned.take (n - 2) ++ '.' :: cleaned.drop (n - 2)⟩
  else ⟨cleaned⟩

/-- Errors that can escape `AmountParser.parse_amount`: the `ValidationError`
it raises itself, and `decimal.InvalidOperation`, which the `<`/`>` range
comparisons raise when the parsed value is a NaN (Python `Decimal` ordering
comparisons raise on NaN) and which is not caught anywhere in the module. -/
inductive PyErr where
  | validationError
  | invalidOperation
  | valueError
deriving DecidableEq, Repr

/-- `AmountParser.parse_amount`.  The control flow of the source is: empty
string check, `_clean_amount_string`, `Decimal(cleaned)` (its failure is
turned into a `ValidationError`), then `amount < self.min_amount` and
`amount > self.max_amount` checks.  The match below is that control flow
evaluated on each constructor of `PyDec`: a NaN makes the first comparison
raise `InvalidOperation`, `-Infinity` fails the minimum check, `+Infinity`
passes the minimum check and fails the maximum check. -/
def parse_amount (s : String) : Except PyErr ℚ :=
  if s = "" then .error .validationError
  else
    match decOfString? (clean_amount_string s) with
    | none => .error .validationError
    | some PyDec.nanv => .error .invalidOperation
    | some PyDec.ninf => .error .validationError
    | some PyDec.pinf => .error .validationError
    | some (PyDec.fin q) =>
      if q < min_amount then .error .validationError
      else if q > max_amount then .error .validationError
      else .ok q

/-! ## `TextCleaner` (`receipt_cleaner.py` lines 105-189) -/

/-- Characters kept by `clean_line`'s noise removal
`re.sub(r'[^\w\s\$\.\,\-]', '', cleaned)`. -/
def keepB (c : Char) : Bool :=
  isWordB c || wsB c || c = '$' || c = '.' || c = ',' || c = '-'

/-- `TextCleaner.clean_line`: `" ".join(line.split())` (collapse whitespace
runs and strip the ends), remove characters outside `[\w\s$.,-]`, collapse
`$` runs to a single `$`, and strip. -/
def clean_line (s : String) : String :=
  if s = "" then ""
  else
    let a := stripWsL (collapseRuns wsB ' ' s.data)
    let b := a.filter keepB
    let c := collapseRuns (fun c => c = '$') '$' b
    ⟨stripWsL c⟩

/-- `TextCleaner.clean_vendor_name`: collapse whitespace, drop the trailing
run matching `[^\w\s]+$`, drop the leading run matching `^[\d\W]+` (anything
that is not a letter or underscore), apply `str.title()`, and strip. -/
def clean_vendor_name (s : String) : String :=
  if s = "" then ""
  else
    let a := stripWsL (collapseRuns wsB ' ' s.data)
    let b := (a.reverse.dropWhile (fun c => !(isWordB c || wsB c))).reverse
    let c := b.dropWhile (fun c => isDigitB c || !isWordB c)
    ⟨stripWsL (titleL false c)⟩

/-- `TextCleaner.should_ignore_line`: true when the line is empty after
stripping, when `re.match(r'^[\d\W\s]+$', line)` succeeds (every character is
a digit, non-word or whitespace — i.e. nothing is a letter or underscore, and
the line is nonempty), when the lowercased line contains an ignore word, or
when the stripped line is shorter than 3 characters. -/
def should_ignore_line (s : String) : Bool :=
  let lower := s.data.map Char.toLower
  if stripWsL s.data = [] then true
  else if s.data ≠ [] ∧ s.data.all (fun c => isDigitB c || !isWordB c || wsB c) then true
  else if ignore_words.any (fun w => containsSub w.data lower) then true
  else if (stripWsL s.data).length < 3 then true
  else false

/-! ## The pattern library (`receipt_cleaner.py` lines 51-93)

Each pattern of `PatternLibrary.get_default_patterns` has the shape
`(.+?) <tail>` where `<tail>` is a deterministic suffix recognizer, and is
used through `re.search` (patterns 1-5 are additionally anchored with `^`).
The lazy group `(.+?)` makes the engine return the match with the shortest
possible first group; for each fixed split the tail sub-expressions
(`\s+`, `\s*`, `\$`, `[\$]?`, `\d+`, `\d{1,3}(?:,\d{3})*`, `\.\d{2}`, `\d*`
and the final `\s*$`) admit no useful backtracking, because every quantified
class is followed by a token no element of that class can start (a shorter
greedy run leaves a character of the same class in a position where the next
token requires a different character).  Each tail is therefore compiled to
the deterministic parser below; `lazySplit` supplies the leftmost-shortest
group-1 semantics.  The matchers assume newline-free input, which holds for
every string they are applied to: `_parse_line` only matches against
`clean_line` output, in which all whitespace has been collapsed to single
spaces (so `.` never hits `\n`, multiline `^`/`$` coincide with start/end of
string, and `re.search` of `(.+?)tail` finds the smallest split point). -/

/-- Leftmost-shortest split for `(.+?)tail`: the shortest nonempty prefix
(of non-newline characters) whose complement satisfies the tail parser.
Returns the pair (group 1, group 2). -/
def lazySplit (T : List Char → Option (List Char)) : List Char → Option (List Char × List Char)
  | [] => none
  | c :: cs =>
    if c = '\n' then none
    else
      match T cs with
      | some g2 => some ([c], g2)
      | none =>
        match lazySplit T cs with
        | some (g1, g2) => some (c :: g1, g2)
        | none => none

/-- Maximal run of `,\d{3}` groups: the `(?:,\d{3})*` sub-expression.
Returns (consumed, rest). -/
def commaGroups : List Char → List Char × List Char
  | ',' :: a :: b :: c :: rest =>
    if isDigitB a && isDigitB b && isDigitB c then
      (',' :: a :: b :: c :: (commaGroups rest).1, (commaGroups rest).2)
    else ([], ',' :: a :: b :: c :: rest)
  | l => ([], l)

/-- The amount sub-expression `\d{1,3}(?:,\d{3})*\.\d{2}` of patterns
`currency_with_commas`, `usd_currency` and `decimal_amount` (in the first
two it is written with a non-optional `(?:\.\d{2})` group, which is the same
expression).  Greedy `\d{1,3}` must take the whole leading digit run (a
shorter take leaves a digit where `,` or `.` is required), so a run longer
than 3 digits can never match. -/
def amtCore (l : List Char) : Option (List Char × List Char) :=
  if l.takeWhile isDigitB = [] ∨ 3 < (l.takeWhile isDigitB).length then none
  else
    match (commaGroups (l.dropWhile isDigitB)).2 with
    | '.' :: x :: y :: r2 =>
      if isDigitB x ∧ isDigitB y then
        some (l.takeWhile isDigitB ++ (commaGroups (l.dropWhile isDigitB)).1 ++
          '.' :: x :: y :: [], r2)
      else none
    | _ => none

/-- Tail of `currency_with_commas`:
`\s+\$\s*(\d{1,3}(?:,\d{3})*(?:\.\d{2}))\s*$`. -/
def tailCurrencyCommas (t : List Char) : Option (List Char) :=
  if t.takeWhile wsB = [] then none
  else
    match t.dropWhile wsB with
    | '$' :: t2 =>
      match amtCore (t2.dropWhile wsB) with
      | some (g2, r) => if r.all wsB then some g2 else none
      | none => none
    | _ => none

/-- Tail of `usd_currency`: `\s+USD\s*(\d{1,3}(?:,\d{3})*(?:\.\d{2}))\s*$`
(the letters are case-insensitive because the pattern is compiled with
`re.IGNORECASE`). -/
def tailUsd (t : List Char) : Option (List Char) :=
  if t.takeWhile wsB = [] then none
  else
    match t.dropWhile wsB with
    | u :: s :: d :: t2 =>
      if u.toLower = 'u' && s.toLower = 's' && d.toLower = 'd' then
        match amtCore (t2.dropWhile wsB) with
        | some (g2, r) => if r.all wsB then some g2 else none
        | none => none
      else none
    | _ => none

/-- Tail of `simple_currency`: `\s+\$(\d+\.\d{2})\s*$`. -/
def tailSimpleCurrency (t : List Char) : Option (List Char) :=
  if t.takeWhile wsB = [] then none
  else
    match t.dropWhile wsB with
    | '$' :: t2 =>
      if t2.takeWhile isDigitB = [] then none
      else
        match t2.dropWhile isDigitB with
        | '.' :: x :: y :: r =>
          if isDigitB x ∧ isDigitB y ∧ r.all wsB then
            some (t2.takeWhile isDigitB ++ '.' :: x :: y :: [])
          else none
        | _ => none
    | _ => none

/-- Tail of `decimal_amount`: `\s+(\d{1,3}(?:,\d{3})*\.\d{2})\s*$`. -/
def tailDecimalAmount (t : List Char) : Option (List Char) :=
  if t.takeWhile wsB = [] then none
  else
    match amtCore (t.dropWhile wsB) with
    | some (g2, r) => if r.all wsB then some g2 else none
    | none => none

/-- Tail of `whole_dollar`: `\s+\$(\d+)\s*$`. -/
def tailWholeDollar (t : List Char) : Option (List Char) :=
  if t.takeWhile wsB = [] then none
  else
    match t.dropWhile wsB with
    | '$' :: t2 =>
      if t2.takeWhile isDigitB = [] then none
      else if (t2.dropWhile isDigitB).all wsB then some (t2.takeWhile isDigitB) else none
    | _ => none

/-- The part of the `loose_numeric` tail after the optional `$`:
`\s*(\d+\.?\d*)\s*$`. -/
def tailLooseAfter (t2 : List Char) : Option (List Char) :=
  if ((t2.dropWhile wsB).takeWhile isDigitB) = [] then none
  else
    match (t2.dropWhile wsB).dropWhile isDigitB with
    | '.' :: r =>
      if (r.dropWhile isDigitB).all wsB then
        some ((t2.dropWhile wsB).takeWhile isDigitB ++ '.' :: r.takeWhile isDigitB)
      else none
    | r => if r.all wsB then some ((t2.dropWhile wsB).takeWhile isDigitB) else none

/-- Tail of `loose_numeric`: `\s*[\$]?\s*(\d+\.?\d*)\s*$`.  The optional `$`
is taken when present (skipping it can never succeed: the following `\s*`
and `\d+` cannot match a `$`). -/
def tailLooseNumeric (t : List Char) : Option (List Char) :=
  match t.dropWhile wsB with
  | '$' :: t2 => tailLooseAfter t2
  | t1 => tailLooseAfter t1

/-- `ParsingPattern` (`receipt_cleaner.py` lines 31-48): a compiled matcher
with a name and an authored confidence. -/
structure ParsingPattern where
  name : String
  confidence : ℚ
  matcher : List Char → Option (List Char × List Char)

/-- `PatternLibrary.get_default_patterns`. -/
def default_patterns : List ParsingPattern :=
  [⟨"currency_with_commas", mkRat 95 100, lazySplit tailCurrencyCommas⟩,
   ⟨"usd_currency", mkRat 95 100, lazySplit tailUsd⟩,
   ⟨"simple_currency", mkRat 9 10, lazySplit tailSimpleCurrency⟩,
   ⟨"decimal_amount", mkRat 8 10, lazySplit tailDecimalAmount⟩,
   ⟨"whole_dollar", mkRat 7 10, lazySplit tailWholeDollar⟩,
   ⟨"loose_numeric", mkRat 1 2, lazySplit tailLooseNumeric⟩]

/-- Stable insertion of a pattern into a confidence-descending list, placing
the inserted (originally earlier) pattern before any pattern of equal or
smaller confidence: together with `List.foldr` this models Python's stable
`sorted(self.patterns, key=lambda p: p.confidence, reverse=True)`. -/
def insertDesc (a : ParsingPattern) : List ParsingPattern → List ParsingPattern
  | [] => [a]
  | b :: bs => if b.confidence ≤ a.confidence then a :: b :: bs else b :: insertDesc a bs

/-- The pattern list as iterated by `_parse_line`:
`sorted(self.patterns, key=lambda p: p.confidence, reverse=True)`. -/
def sorted_patterns : List ParsingPattern :=
  default_patterns.foldr insertDesc []

/-! ## `RegexReceiptParser` and friends (`receipt_cleaner.py` lines 273-433,
`models.py` lines 33-54) -/

/-- `ParsedLine` (`receipt_cleaner.py` lines 20-28). -/
structure ParsedLine where
  line_number : Nat
  raw_text : String
  vendor : String
  amount : Option ℚ
  confidence : ℚ
  parse_method : String
deriving DecidableEq, Repr

/-- `ReceiptItem` (`models.py` lines 33-54). -/
structure ReceiptItem where
  vendor : String
  amount : ℚ
  category : String
  line_number : Nat
  confidence : ℚ
  raw_text : String
deriving DecidableEq, Repr

/-- `ReceiptItem` construction including `__post_init__`: a negative amount
raises `ValueError`; otherwise vendor and category are stored stripped. -/
def mkReceiptItem (vendor : String) (amount : ℚ) (category : String)
    (line_number : Nat) (confidence : ℚ) (raw_text : String) : Except PyErr ReceiptItem :=
  if amount < 0 then .error .valueError
  else .ok ⟨pyStrip vendor, amount, pyStrip category, line_number, confidence, raw_text⟩

/-- The pattern loop of `_parse_line` (lines 367-398): try each pattern of
the sorted list; on a regex match, clean the vendor (an empty result
continues with the next pattern) and parse the amount (a `ValidationError`
is caught and continues with the next pattern; a `decimal.InvalidOperation`
would not be caught and propagates). -/
def patLoop (cleaned : List Char) (raw : String) (n : Nat) :
    List ParsingPattern → Except PyErr (Option ParsedLine)
  | [] => .ok none
  | p :: ps =>
    match p.matcher cleaned with
    | none => patLoop cleaned raw n ps
    | some (g1, g2) =>
      if clean_vendor_name ⟨g1⟩ = "" then patLoop cleaned raw n ps
      else
        match parse_amount ⟨g2⟩ with
        | .ok a =>
          .ok (some ⟨n, raw, clean_vendor_name ⟨g1⟩, some a, p.confidence, p.name⟩)
        | .error .validationError => patLoop cleaned raw n ps
        | .error e => .error e

/-- `RegexReceiptParser._parse_line` (lines 349-400): clean the line, drop it
if `should_ignore_line` holds, otherwise run the pattern loop. -/
def parse_line (line : String) (n : Nat) : Except PyErr (Option ParsedLine) :=
  if should_ignore_line (clean_line line) then .ok none
  else patLoop (clean_line line).data line n sorted_patterns

/-- Line splitting of `str.splitlines()`. -/
def lineBreakB (c : Char) : Bool :=
  c = '\n' || c = '\r' || c = '\x0b' || c = '\x0c' || c = '\x1c' || c = '\x1d' ||
  c = '\x1e' || c = '\x85' || c = '\u2028' || c = '\u2029'

/-- Python `str.splitlines()`: split at line breaks (`\r\n` counts as one),
with no trailing empty line for a trailing break and `[]` for `""`. -/
def splitLinesL : List Char → List (List Char)
  | [] => []
  | '\r' :: '\n' :: rest => [] :: splitLinesL rest
  | c :: cs =>
    if lineBreakB c then [] :: splitLinesL cs
    else
      match splitLinesL cs with
      | [] => [[c]]
      | l :: ls => (c :: l) :: ls

/-- The body of the line loop of `parse_receipt_text` (lines 317-338): parse
the line and, when a `ParsedLine` with an amount came back, construct the
`ReceiptItem`.  `_parse_line` can only fail with `InvalidOperation`, which
the `except ValidationError` clause does not catch, and the `ValueError` of
`ReceiptItem.__post_init__` is not caught either, so both propagate. -/
def lineStep (n : Nat) (l : String) : Except PyErr (Option ReceiptItem) :=
  match parse_line l n with
  | .error e => .error e
  | .ok none => .ok none
  | .ok (some pl) =>
    match pl.amount with
    | none => .ok none
    | some a =>
      match mkReceiptItem pl.vendor a "" pl.line_number pl.confidence pl.raw_text with
      | .error e => .error e
      | .ok item => .ok (some item)

/-- The enumerated line loop of `parse_receipt_text`, collecting parsed items
in order (line numbers start at 1). -/
def parseLoop (n : Nat) : List String → Except PyErr (List ReceiptItem)
  | [] => .ok []
  | l :: ls =>
    match lineStep n l with
    | .error e => .error e
    | .ok none => parseLoop (n + 1) ls
    | .ok (some item) =>
      match parseLoop (n + 1) ls with
      | .error e => .error e
      | .ok items => .ok (item :: items)

/-- `RegexReceiptParser.parse_receipt_text` (lines 292-347) on string input:
a whitespace-only text returns `[]` immediately; otherwise every line of
`text.splitlines()` is processed in order. -/
def parse_receipt_text (text : String) : Except PyErr (List ReceiptItem) :=
  if stripWsL text.data = [] then .ok []
  else parseLoop 1 ((splitLinesL text.data).map (fun l => (⟨l⟩ : String)))

/-- A Python value passed where a string is expected: either a string or a
non-string (carrying only its type name, which is all the code looks at). -/
inductive PyValue where
  | ofStr (s : String)
  | nonStr (typename : String)

/-- `RegexReceiptParser.parse_receipt_text` including the
`isinstance(text, str)` check (lines 304-305): non-string input raises
`ValidationError` before any line is processed. -/
def parse_receipt_text_checked : PyValue → Except PyErr (List ReceiptItem)
  | .ofStr s => parse_receipt_text s
  | .nonStr _ => .error .validationError

/-- `ProcessingError` of `models.py`. -/
inductive ProcErr where
  | processingError
deriving DecidableEq, Repr

/-- `ReceiptParsingManager.parse_receipt_text` (lines 415-433): a
`ValidationError` — and any other exception — from the parser is re-raised
as a `ProcessingError`. -/
def manager_parse_receipt_text (v : PyValue) : Except ProcErr (List ReceiptItem) :=
  match parse_receipt_text_checked v with
  | .ok items => .ok items
  | .error _ => .error .processingError

/-! ## `smart_parse_receipt` (`final_main.py` lines 36-130)

The function is modelled with its default `manual_adjustments=None`, i.e.
without the manual-adjustment tail, which only appends extra items and does
not interact with the per-line loop. -/

/-- Python `text.split('\n')`. -/
def splitOnNl : List Char → List (List Char)
  | [] => [[]]
  | c :: cs =>
    if c = '\n' then [] :: splitOnNl cs
    else
      match splitOnNl cs with
      | [] => [[c]]
      | l :: ls => (c :: l) :: ls

/-- `re.findall(r'(\d+SEP\d{2})', line)` for a separator character `SEP`
(`.` or `,`): non-overlapping leftmost matches; at each position the greedy
`\d+` must take the whole digit run (a shorter take leaves a digit where the
separator is required), so a match at a position is a nonempty digit run
followed by the separator and exactly two digits (further digits simply stay
outside the match). -/
def findAmountsF (sep : Char) : Nat → List Char → List (List Char)
  | 0, _ => []
  | _, [] => []
  | fuel + 1, l@(_ :: cs) =>
    let d := l.takeWhile isDigitB
    match l.dropWhile isDigitB with
    | s :: x :: y :: rest =>
      if d ≠ [] ∧ s = sep ∧ isDigitB x ∧ isDigitB y then
        (d ++ s :: x :: y :: []) :: findAmountsF sep fuel rest
      else findAmountsF sep fuel cs
    | _ => findAmountsF sep fuel cs

/-- `re.findall` wrapper: the fuel `l.length` always suffices, because every
recursive call drops at least one character and decrements the fuel by
exactly one. -/
def findAmounts (sep : Char) (l : List Char) : List (List Char) :=
  findAmountsF sep l.length l

/-- Both amount patterns of `smart_parse_receipt`, in library order
(`amounts_found`). -/
def lineAmounts (l : List Char) : List (List Char) :=
  findAmounts '.' l ++ findAmounts ',' l

/-- `float(amount_str.replace(',', '.'))` for the strings produced by
`findAmounts` (always of the shape `digits SEP two-digits`, so the float
conversion cannot fail and the value is `digits` + cents; the comparisons
against `0.50` and `200.00` performed on binary floats decide exactly as on
the rational value, because every representable boundary case is exact). -/
def amtValue (astr : List Char) : ℚ :=
  let s := replaceChar ',' ['.'] astr
  let d := s.takeWhile isDigitB
  let f := (s.dropWhile isDigitB).drop 1
  mkRat (natOfDigits (d ++ f)) (10 ^ f.length)

/-- The `valid_amounts` filter: keep amounts in `[0.50, 200.00]`. -/
def validAmounts (l : List Char) : List ℚ :=
  ((lineAmounts l).map amtValue).filter (fun a => decide (mkRat 1 2 ≤ a) && decide (a ≤ 200))

/-- Does `\d+[\.,]\d+` match at this position (with the greedy `\d+` forced
to the whole leading run)?  Used by `re.sub(r'\d+[\.,]\d+.*$', '', line)`,
which erases everything from the leftmost such position. -/
def amtStartB (l : List Char) : Bool :=
  l.takeWhile isDigitB ≠ [] &&
    match l.dropWhile isDigitB with
    | s :: x :: _ => (s = '.' || s = ',') && isDigitB x
    | _ => false

/-- `re.sub(r'\d+[\.,]\d+.*$', '', line)`: truncate at the leftmost position
where a digit run followed by `.`/`,` and another digit begins. -/
def vendorCut : List Char → List Char
  | [] => []
  | c :: cs => if amtStartB (c :: cs) then [] else c :: vendorCut cs

/-- The vendor extraction of `smart_parse_receipt`: truncate at the amount,
strip, replace non-word non-space characters by spaces, collapse whitespace. -/
def vendorPart (line : List Char) : List Char :=
  let v1 := stripWsL (vendorCut line)
  let v2 := v1.map (fun c => if !(isWordB c || wsB c) then ' ' else c)
  stripWsL (collapseRuns wsB ' ' v2)

/-- The `exclude_keywords` list of `final_main.smart_parse_receipt`. -/
def exclude_keywords : List String :=
  ["total", "subtotal", "tax", "change", "tender", "payment",
   "transaction", "record", "receipt", "store", "reg", "cashier"]

/-- One pass of the `smart_parse_receipt` line loop, carrying the `seen_items`
set of already-used vendor keys (first 20 characters of the lowercased vendor
part).  Order of the checks follows the source: strip and length, amount
patterns, exclude keywords, amount range filter, vendor length, dedup key,
item construction. -/
def smartLoop (seen : List (List Char)) : List (List Char) → Except PyErr (List ReceiptItem)
  | [] => .ok []
  | rawline :: rest =>
    if stripWsL rawline = [] ∨ (stripWsL rawline).length < 5 then smartLoop seen rest
    else if lineAmounts (stripWsL rawline) = [] then smartLoop seen rest
    else if exclude_keywords.any
        (fun w => containsSub w.data ((stripWsL rawline).map Char.toLower)) then
      smartLoop seen rest
    else
      match validAmounts (stripWsL rawline) with
      | [] => smartLoop seen rest
      | a :: _ =>
        if (vendorPart (stripWsL rawline)).length < 3 then smartLoop seen rest
        else if ((vendorPart (stripWsL rawline)).map Char.toLower).take 20 ∈ seen then
          smartLoop seen rest
        else
          match mkReceiptItem ⟨(vendorPart (stripWsL rawline)).take 50⟩ a "" 0 1
              ⟨stripWsL rawline⟩ with
          | .error e => .error e
          | .ok item =>
            match smartLoop ((((vendorPart (stripWsL rawline)).map Char.toLower).take 20) :: seen)
                rest with
            | .error e => .error e
            | .ok items => .ok (item :: items)

/-- `final_main.smart_parse_receipt` with the default `manual_adjustments`. -/
def smart_parse_receipt (text : String) : Except PyErr (List ReceiptItem) :=
  smartLoop [] (splitOnNl text.data)

/-! ## Definitions used only to state claims -/

/-- From the claim wording of C6: the number of non-space characters of a
line. -/
def nonSpaceCount (s : String) : Nat := (s.data.filter (fun c => !wsB c)).length

/-- The dedup key a line of `smart_parse_receipt` claims when it passes all
the pre-dedup filters (strip/length, amount patterns, exclude keywords,
amount range, vendor length): the first 20 characters of the lowercased
vendor part; `none` when any filter rejects the line. -/
def lineKey (rawline : List Char) : Option (List Char) :=
  if stripWsL rawline = [] ∨ (stripWsL rawline).length < 5 then none
  else if lineAmounts (stripWsL rawline) = [] then none
  else if exclude_keywords.any
      (fun w => containsSub w.data ((stripWsL rawline).map Char.toLower)) then none
  else
    match validAmounts (stripWsL rawline) with
    | [] => none
    | _ :: _ =>
      if (vendorPart (stripWsL rawline)).length < 3 then none
      else some (((vendorPart (stripWsL rawline)).map Char.toLower).take 20)

/-- The `ReceiptItem` a passing line of `smart_parse_receipt` produces:
vendor truncated to 50 characters (stored stripped by `__post_init__`),
the first valid amount, and the stripped line as `raw_text`. -/
def smartItem (rawline : List Char) : ReceiptItem :=
  ⟨pyStrip ⟨(vendorPart (stripWsL rawline)).take 50⟩,
   (validAmounts (stripWsL rawline)).headD 0, pyStrip "", 0, 1, ⟨stripWsL rawline⟩⟩

/-- Invariant tying `smartLoop`'s seen-set threading to the declarative
first-occurrence-wins view: the produced (key, item) pairs have pairwise
distinct keys none of which were already seen, a not-yet-seen key is
produced iff some line claims it, and the item produced for a key comes
from the first line claiming that key. -/
def smartInv (seen : List (List Char)) (ls : List (List Char))
    (pairs : List (List Char × ReceiptItem)) : Prop :=
  (pairs.map Prod.fst).Nodup ∧
  (∀ p ∈ pairs, p.1 ∉ seen) ∧
  ∀ k : List Char, k ∉ seen →
    ((∃ l ∈ ls, lineKey l = some k) ↔ ∃ it, (k, it) ∈ pairs) ∧
    (∀ it, (k, it) ∈ pairs →
      ∃ pre l post, ls = pre ++ l :: post ∧ lineKey l = some k ∧
        (∀ l' ∈ pre, lineKey l' ≠ some k) ∧ it = smartItem l)

/-- A pattern is rejected by the `_parse_line` loop on a cleaned line: its
regex does not match, or the vendor group cleans to the empty string, or the
amount group fails validation. -/
def patternRejects (p : ParsingPattern) (cleaned : String) : Prop :=
  p.matcher cleaned.data = none ∨
  ∃ g1 g2, p.matcher cleaned.data = some (g1, g2) ∧
    (clean_vendor_name ⟨g1⟩ = "" ∨
     (clean_vendor_name ⟨g1⟩ ≠ "" ∧ parse_amount ⟨g2⟩ = .error .validationError))

/-- A pattern is accepted by the `_parse_line` loop on a cleaned line,
producing the given `ParsedLine`. -/
def patternAccepts (p : ParsingPattern) (cleaned : String) (raw : String) (n : Nat)
    (pl : ParsedLine) : Prop :=
  ∃ g1 g2 a, p.matcher cleaned.data = some (g1, g2) ∧
    clean_vendor_name ⟨g1⟩ ≠ "" ∧ parse_amount ⟨g2⟩ = .ok a ∧
    pl = ⟨n, raw, clean_vendor_name ⟨g1⟩, some a, p.confidence, p.name⟩

/-- The item a single line contributes to `parse_receipt_text`, if any: the
declarative per-line view used to state that lines are processed
independently. -/
def lineItemOf (n : Nat) (l : String) : Option ReceiptItem :=
  match parse_line l n with
  | .ok (some pl) =>
    match pl.amount with
    | some a => (mkReceiptItem pl.vendor a "" pl.line_number pl.confidence pl.raw_text).toOption
    | none => none
  | _ => none

/-- The items of a text, line by line (line numbers starting at 1). -/
def receiptItemsOf (text : String) : List ReceiptItem :=
  (List.enumFrom 1 (splitLinesL text.data)).filterMap
    (fun p => lineItemOf p.1 (⟨p.2⟩ : String))

/-! ## General lemmas about the string utilities -/

theorem dropWhile_eq_self_of_all {p : Char → Bool} {l : List Char}
    (h : ∀ x ∈ l, p x = false) : l.dropWhile p = l := by
  cases l with
  | nil => rfl
  | cons c cs =>
    rw [List.dropWhile_cons, if_neg]
    simp [h c (by simp)]

theorem stripWsL_eq_self {l : List Char} (h : ∀ x ∈ l, wsB x = false) :
    stripWsL l = l := by
  unfold stripWsL
  rw [dropWhile_eq_self_of_all h,
    dropWhile_eq_self_of_all (by intro x hx; exact h x (by simpa using hx)),
    List.reverse_reverse]

theorem replaceChar_eq_self {a : Char} {repl l : List Char}
    (h : ∀ x ∈ l, x ≠ a) : replaceChar a repl l = l := by
  induction l with
  | nil => rfl
  | cons c cs ih =>
    rw [replaceChar, if_neg (h c (by simp)), ih (fun x hx => h x (by simp [hx]))]
    rfl

theorem replaceUSD_eq_self {l : List Char}
    (h : ∀ x ∈ l, x ≠ 'U') : replaceUSD l = l := by
  induction l with
  | nil => rfl
  | cons c cs ih =>
    rw [replaceUSD.eq_def]
    split
    · simp_all
    · rename_i heq
      injection heq with h1 h2
      exact absurd h1 (h c (by simp))
    · rename_i heq
      injection heq with h1 h2
      subst h1
      subst h2
      rw [ih (fun x hx => h x (by simp [hx]))]

theorem dropWhile_head_false {p : Char → Bool} :
    ∀ (l : List Char) {c cs}, l.dropWhile p = c :: cs → p c = false := by
  intro l
  induction l with
  | nil => intro c cs h; cases h
  | cons a as ih =>
    intro c cs h
    rw [List.dropWhile_cons] at h
    split at h
    · exact ih h
    · cases h
      rename_i hn
      simpa using hn

theorem not_ws_of_digit {x : Char} (h : isDigitB x = true) : wsB x = false := by
  cases hw : wsB x
  · rfl
  · exfalso
    simp only [wsB, Bool.or_eq_true, decide_eq_true_eq] at hw
    rcases hw with ((((((((((rfl|rfl)|rfl)|rfl)|rfl)|rfl)|rfl)|rfl)|rfl)|rfl)|rfl) <;>
      exact absurd h (by decide)

theorem stripWsL_as_rdrop (m : List Char) :
    stripWsL m = List.rdropWhile wsB (m.dropWhile wsB) := rfl

theorem stripWsL_idem (l : List Char) : stripWsL (stripWsL l) = stripWsL l := by
  rw [stripWsL_as_rdrop, stripWsL_as_rdrop]
  set X := l.dropWhile wsB with hX
  have h1 : (List.rdropWhile wsB X).dropWhile wsB = List.rdropWhile wsB X := by
    rcases h : List.rdropWhile wsB X with _ | ⟨c, cs⟩
    · rfl
    · have hpre : List.rdropWhile wsB X <+: X := List.rdropWhile_prefix ..
      rw [h] at hpre
      obtain ⟨t, ht⟩ := hpre
      have hc : wsB c = false := by
        refine @dropWhile_head_false wsB l c (cs ++ t) ?_
        rw [← hX, ← ht]
        simp
      rw [List.dropWhile_cons, if_neg]
      simp [hc]
  rw [h1, List.rdropWhile_idempotent]

theorem pyStrip_idem (s : String) : pyStrip (pyStrip s) = pyStrip s := by
  simp only [pyStrip]
  exact congrArg String.mk (stripWsL_idem s.data)

/-! ## Claim C4: the implied-cents heuristic of `_clean_amount_string` -/

/-- C4: on an all-digit amount string, `_clean_amount_string` inserts a
decimal point two digits from the end exactly when the length is 3 or 4
(leaving strings of length 1, 2, or at least 5 unchanged), and consequently
`parse_amount "1234" = 12.34` and `parse_amount "123" = 1.23`. -/
theorem C4_implied_cents :
    (∀ l : List Char, (∀ c ∈ l, isDigitB c) →
      ((l.length = 3 ∨ l.length = 4) →
        clean_amount_string ⟨l⟩ = ⟨l.take (l.length - 2) ++ '.' :: l.drop (l.length - 2)⟩) ∧
      ((l.length ≤ 2 ∨ 5 ≤ l.length) → clean_amount_string ⟨l⟩ = ⟨l⟩)) ∧
    parse_amount "1234" = .ok (1234 / 100) ∧ parse_amount "123" = .ok (123 / 100) := by
  refine ⟨?_, ?_, ?_⟩
  case refine_2 =>
    rw [show parse_amount "1234" = Except.ok (mkRat 1234 100) from by decide]
    simp only [Except.ok.injEq]
    rw [Rat.mkRat_eq_div]
    norm_num
  case refine_3 =>
    rw [show parse_amount "123" = Except.ok (mkRat 123 100) from by decide]
    simp only [Except.ok.injEq]
    rw [Rat.mkRat_eq_div]
    norm_num
  intro l hdig
  have hd : ∀ x ∈ l, x ≠ '$' := by
    intro x hx h
    subst h
    exact absurd (hdig _ hx) (by decide)
  have hu : ∀ x ∈ l, x ≠ 'U' := by
    intro x hx h
    subst h
    exact absurd (hdig _ hx) (by decide)
  have hws : ∀ x ∈ l, wsB x = false := fun x hx => not_ws_of_digit (hdig x hx)
  have hcm : ∀ x ∈ l, x ≠ ',' := by
    intro x hx h
    subst h
    exact absurd (hdig _ hx) (by decide)
  have hstep : stripWsL (replaceUSD (replaceChar '$' [] l)) = l := by
    rw [replaceChar_eq_self hd, replaceUSD_eq_self hu, stripWsL_eq_self hws]
  have hnodot : '.' ∉ l := by
    intro hmem
    exact absurd (hdig _ hmem) (by decide)
  have halldig : ∀ k : Nat, (l.drop k).all isDigitB := by
    intro k
    rw [List.all_eq_true]
    intro x hx
    exact hdig x (List.mem_of_mem_drop hx)
  constructor
  · rintro (h3 | h4)
    · simp only [clean_amount_string, String.data]
      rw [hstep, replaceChar_eq_self hcm, if_pos]
      exact ⟨⟨hnodot, by omega⟩, ⟨halldig _, by omega⟩⟩
    · simp only [clean_amount_string, String.data]
      rw [hstep, replaceChar_eq_self hcm, if_pos]
      exact ⟨⟨hnodot, by omega⟩, ⟨halldig _, by omega⟩⟩
  · rintro hlen
    simp only [clean_amount_string, String.data]
    rw [hstep, replaceChar_eq_self hcm, if_neg]
    rintro ⟨⟨-, hgt⟩, -, hle⟩
    omega

/-- Witness for C4 at concrete inputs: a 5-digit string is left unchanged by
the cleaning step, and the two concrete `parse_amount` values hold. -/
theorem C4_witness :
    clean_amount_string "67890" = "67890" ∧
    parse_amount "1234" = .ok (1234 / 100) ∧ parse_amount "123" = .ok (123 / 100) :=
  ⟨(C4_implied_cents.1 "67890".data (by decide)).2 (by decide),
   C4_implied_cents.2.1, C4_implied_cents.2.2⟩

/-! ## Claim C6: short-line filtering -/

/-- C6 as written is false: `should_ignore_line` compares
`len(line.strip())`, which counts interior spaces, not the number of
non-space characters.  The line `"a b"` has 2 non-space characters but is
not ignored. -/
theorem C6_counterexample :
    nonSpaceCount "a b" < 3 ∧ should_ignore_line "a b" = false := by
  decide

/-- C6 amended: every line whose whitespace-stripped form is shorter than 3
characters is ignored by `should_ignore_line`. -/
theorem C6_short_stripped_ignored :
    ∀ s : String, (pyStrip s).length < 3 → should_ignore_line s = true := by
  intro s h
  have h' : (stripWsL s.data).length < 3 := h
  simp only [should_ignore_line]
  split
  · rfl
  · split
    · rfl
    · split
      · rfl
      · simp [h']

/-- Witness for C6 at a concrete input. -/
theorem C6_witness : should_ignore_line "ab" = true :=
  C6_short_stripped_ignored "ab" (by decide)

/-! ## Claim C7: non-string input -/

/-- C7: a non-string input makes `RegexReceiptParser.parse_receipt_text`
fail with a `ValidationError` before any line is processed, and
`ReceiptParsingManager.parse_receipt_text` surfaces it as a
`ProcessingError`; no items are produced in either case. -/
theorem C7_non_string_input : ∀ t : String,
    parse_receipt_text_checked (PyValue.nonStr t) = .error .validationError ∧
    manager_parse_receipt_text (PyValue.nonStr t) = .error .processingError :=
  fun _ => ⟨rfl, rfl⟩

/-! ## Claim C9: the `ReceiptItem` construction invariant -/

/-- C9 as written is false: nothing in `ReceiptItem.__post_init__` requires
a non-empty vendor, so construction with a whitespace-only vendor succeeds
and stores the empty string. -/
theorem C9_counterexample :
    ∃ item, mkReceiptItem "   " 1 "" 0 1 "" = .ok item ∧ item.vendor = "" :=
  ⟨⟨"", 1, "", 0, 1, ""⟩, by decide, rfl⟩

/-- C9 amended: every constructed `ReceiptItem` has a whitespace-trimmed
(possibly empty) vendor and category and a non-negative amount; construction
with a negative amount fails with `ValueError`, and construction with a
non-negative amount succeeds. -/
theorem C9_item_invariants :
    (∀ v a c n q r item, mkReceiptItem v a c n q r = .ok item →
        0 ≤ item.amount ∧ item.vendor = pyStrip v ∧ item.category = pyStrip c ∧
        pyStrip item.vendor = item.vendor ∧ pyStrip item.category = item.category ∧
        item.amount = a ∧ item.line_number = n ∧ item.confidence = q ∧ item.raw_text = r) ∧
    (∀ v a c n q r, a < 0 → mkReceiptItem v a c n q r = .error .valueError) ∧
    (∀ v a c n q r, 0 ≤ a → ∃ item, mkReceiptItem v a c n q r = .ok item) := by
  refine ⟨?_, ?_, ?_⟩
  · intro v a c n q r item h
    unfold mkReceiptItem at h
    by_cases ha : a < 0
    · rw [if_pos ha] at h
      cases h
    · rw [if_neg ha] at h
      cases h
      refine ⟨le_of_not_lt ha, rfl, rfl, pyStrip_idem v, pyStrip_idem c, rfl, rfl, rfl, rfl⟩
  · intro v a c n q r h
    unfold mkReceiptItem
    rw [if_pos h]
  · intro v a c n q r h
    exact ⟨_, by unfold mkReceiptItem; rw [if_neg (not_lt.mpr h)]⟩

/-- Witness for C9 at concrete inputs: a successful construction with
trimming, a failing negative construction, and a successful non-negative
construction. -/
theorem C9_witness :
    (0 ≤ ((⟨"a", 2, "b", 7, 1, "x"⟩ : ReceiptItem)).amount ∧
      (⟨"a", 2, "b", 7, 1, "x"⟩ : ReceiptItem).vendor = pyStrip " a " ∧
      (⟨"a", 2, "b", 7, 1, "x"⟩ : ReceiptItem).category = pyStrip " b " ∧
      pyStrip (⟨"a", 2, "b", 7, 1, "x"⟩ : ReceiptItem).vendor =
        (⟨"a", 2, "b", 7, 1, "x"⟩ : ReceiptItem).vendor ∧
      pyStrip (⟨"a", 2, "b", 7, 1, "x"⟩ : ReceiptItem).category =
        (⟨"a", 2, "b", 7, 1, "x"⟩ : ReceiptItem).category ∧
      (⟨"a", 2, "b", 7, 1, "x"⟩ : ReceiptItem).amount = 2 ∧
      (⟨"a", 2, "b", 7, 1, "x"⟩ : ReceiptItem).line_number = 7 ∧
      (⟨"a", 2, "b", 7, 1, "x"⟩ : ReceiptItem).confidence = 1 ∧
      (⟨"a", 2, "b", 7, 1, "x"⟩ : ReceiptItem).raw_text = "x") ∧
    mkReceiptItem "v" (-1) "" 0 1 "" = .error .valueError ∧
    (∃ item, mkReceiptItem "v" 1 "" 0 1 "" = .ok item) :=
  ⟨C9_item_invariants.1 " a " 2 " b " 7 1 "x" ⟨"a", 2, "b", 7, 1, "x"⟩ (by decide),
   C9_item_invariants.2.1 "v" (-1) "" 0 1 "" (by norm_num),
   C9_item_invariants.2.2 "v" 1 "" 0 1 "" (by norm_num)⟩

/-! ## Claim C3: `parse_amount` error conditions -/

/-- C3 as written is false: the input `"NaN"` is nonempty, its cleaned form
is accepted by the `Decimal` constructor, and the resulting NaN is neither
below the minimum nor above the maximum, yet `parse_amount` neither returns
a value nor raises `ValidationError` — the `<` comparison against the
minimum raises `decimal.InvalidOperation`. -/
theorem C3_counterexample :
    parse_amount "NaN" = .error .invalidOperation ∧
    parse_amount "NaN" ≠ .error .validationError ∧
    (∀ q : ℚ, parse_amount "NaN" ≠ .ok q) ∧
    clean_amount_string "NaN" = "NaN" ∧
    decOfString? "NaN" = some PyDec.nanv := by
  refine ⟨by decide, by decide, ?_, by decide, by decide⟩
  intro q h
  rw [show parse_amount "NaN" = Except.error PyErr.invalidOperation from by decide] at h
  exact absurd h (by simp)

/-- C3 amended: `parse_amount` raises `ValidationError` exactly when the
input is empty, the cleaned string is rejected by the `Decimal` constructor,
or the parsed value is an infinity or a finite value outside
`[min_amount, max_amount]`; when the cleaned string parses to a NaN the
range comparison raises `decimal.InvalidOperation` instead; otherwise the
finite in-range value is returned exactly. -/
theorem C3_parse_amount_spec : ∀ s : String,
    (parse_amount s = .error .validationError ↔
      (s = "" ∨ decOfString? (clean_amount_string s) = none ∨
       decOfString? (clean_amount_string s) = some PyDec.ninf ∨
       decOfString? (clean_amount_string s) = some PyDec.pinf ∨
       (∃ q, decOfString? (clean_amount_string s) = some (PyDec.fin q) ∧
         (q < min_amount ∨ max_amount < q)))) ∧
    (parse_amount s = .error .invalidOperation ↔
      (s ≠ "" ∧ decOfString? (clean_amount_string s) = some PyDec.nanv)) ∧
    (∀ q : ℚ, parse_amount s = .ok q ↔
      (s ≠ "" ∧ decOfString? (clean_amount_string s) = some (PyDec.fin q) ∧
        min_amount ≤ q ∧ q ≤ max_amount)) := by
  intro s
  by_cases hs : s = ""
  · subst hs
    refine ⟨?_, ?_, ?_⟩ <;> simp [parse_amount]
  · have hpa : parse_amount s =
        match decOfString? (clean_amount_string s) with
        | none => .error .validationError
        | some PyDec.nanv => .error .invalidOperation
        | some PyDec.ninf => .error .validationError
        | some PyDec.pinf => .error .validationError
        | some (PyDec.fin q) =>
          if q < min_amount then .error .validationError
          else if q > max_amount then .error .validationError
          else .ok q := by
      unfold parse_amount
      rw [if_neg hs]
    rcases hdec : decOfString? (clean_amount_string s) with _ | d
    · rw [hdec] at hpa
      have hpa2 : parse_amount s = .error .validationError := by rw [hpa]
      exact ⟨by simp [hpa2], by simp [hpa2], fun q => by simp [hpa2]⟩
    · cases d with
      | fin q =>
        rw [hdec] at hpa
        have hpa2 : parse_amount s =
            (if q < min_amount then Except.error PyErr.validationError
             else if q > max_amount then Except.error PyErr.validationError
             else Except.ok q) := by rw [hpa]
        clear hpa
        by_cases h1 : q < min_amount
        · rw [if_pos h1] at hpa2
          refine ⟨?_, by simp [hpa2], ?_⟩
          · rw [hpa2]
            simp only [true_iff]
            exact Or.inr (Or.inr (Or.inr (Or.inr ⟨q, rfl, Or.inl h1⟩)))
          · intro q'
            rw [hpa2]
            simp only [Option.some.injEq, PyDec.fin.injEq]
            constructor
            · intro hcontra
              exact absurd hcontra (by simp)
            · rintro ⟨-, rfl, hle, -⟩
              exact absurd h1 (not_lt.mpr hle)
        · rw [if_neg h1] at hpa2
          by_cases h2 : q > max_amount
          · rw [if_pos h2] at hpa2
            refine ⟨?_, by simp [hpa2], ?_⟩
            · rw [hpa2]
              simp only [true_iff]
              exact Or.inr (Or.inr (Or.inr (Or.inr ⟨q, rfl, Or.inr h2⟩)))
            · intro q'
              rw [hpa2]
              simp only [Option.some.injEq, PyDec.fin.injEq]
              constructor
              · intro hcontra
                exact absurd hcontra (by simp)
              · rintro ⟨-, rfl, -, hle⟩
                exact absurd h2 (not_lt.mpr hle)
          · rw [if_neg h2] at hpa2
            refine ⟨?_, by simp [hpa2], ?_⟩
            · rw [hpa2]
              simp only [hs, Option.some.injEq, PyDec.fin.injEq, false_or]
              constructor
              · intro hcontra
                exact absurd hcontra (by simp)
              · rintro (h | h | h | ⟨q', rfl, hout⟩)
                · cases h
                · cases h
                · cases h
                · rcases hout with h | h
                  · exact absurd h h1
                  · exact absurd h h2
            · intro q'
              rw [hpa2]
              simp only [Option.some.injEq, PyDec.fin.injEq, Except.ok.injEq,
                ne_eq, hs, not_false_eq_true, true_and]
              constructor
              · rintro rfl
                exact ⟨rfl, not_lt.mp h1, not_lt.mp h2⟩
              · rintro ⟨rfl, -, -⟩
                rfl
      | pinf =>
        rw [hdec] at hpa
        have hpa2 : parse_amount s = .error .validationError := by rw [hpa]
        exact ⟨by simp [hpa2], by simp [hpa2], fun q => by simp [hpa2]⟩
      | ninf =>
        rw [hdec] at hpa
        have hpa2 : parse_amount s = .error .validationError := by rw [hpa]
        exact ⟨by simp [hpa2], by simp [hpa2], fun q => by simp [hpa2]⟩
      | nanv =>
        rw [hdec] at hpa
        have hpa2 : parse_amount s = .error .invalidOperation := by rw [hpa]
        exact ⟨by simpa [hpa2] using hs, by simpa [hpa2] using hs, fun q => by simp [hpa2]⟩

/-- Witness for C3 at a concrete input: `"$5.00"` is nonempty, cleans to a
finite in-range decimal, and is returned exactly. -/
theorem C3_witness :
    parse_amount "$5.00" = .ok 5 :=
  ((C3_parse_amount_spec "$5.00").2.2 5).mpr ⟨by decide, by decide, by decide, by decide⟩

/-! ## Lemmas about the hand-compiled matchers -/

theorem toLower_of_digit {c : Char} (h : isDigitB c = true) : c.toLower = c := by
  simp only [isDigitB, Char.isDigit, Bool.and_eq_true, decide_eq_true_eq] at h
  obtain ⟨h1, h2⟩ := h
  unfold Char.toLower
  rw [if_neg]
  rintro ⟨ha, hb⟩
  simp only [Char.toNat] at ha
  have h1' : 48 ≤ c.val.toNat := h1
  have h2' : c.val.toNat ≤ 57 := h2
  omega

theorem mem_stripWsL {l : List Char} {c : Char} (h : c ∈ stripWsL l) : c ∈ l := by
  rw [stripWsL_as_rdrop] at h
  exact (List.dropWhile_sublist wsB).subset ((List.rdropWhile_prefix ..).sublist.subset h)

theorem mem_replaceChar_nil {a : Char} :
    ∀ {l c}, c ∈ replaceChar a [] l → c ∈ l ∧ c ≠ a := by
  intro l
  induction l with
  | nil => intro c h; cases h
  | cons b bs ih =>
    intro c h
    rw [replaceChar] at h
    by_cases hb : b = a
    · rw [if_pos hb] at h
      simp only [List.nil_append] at h
      obtain ⟨h1, h2⟩ := ih h
      exact ⟨by simp [h1], h2⟩
    · rw [if_neg hb] at h
      rcases List.mem_append.mp h with h1 | h1
      · rw [List.mem_singleton] at h1
        subst h1
        exact ⟨by simp, hb⟩
      · obtain ⟨h1, h2⟩ := ih h1
        exact ⟨by simp [h1], h2⟩

theorem mem_collapseRunsAux {p : Char → Bool} {r : Char} :
    ∀ {b l c}, c ∈ collapseRunsAux p r b l → c ∈ l ∨ (c = r ∧ ∃ x ∈ l, p x = true) := by
  intro b l
  induction l generalizing b with
  | nil => intro c h; cases h
  | cons a as ih =>
    intro c h
    rw [collapseRunsAux] at h
    split at h
    · rename_i hpa
      split at h
      · rcases ih h with h1 | ⟨h1, x, hx, hpx⟩
        · exact Or.inl (by simp [h1])
        · exact Or.inr ⟨h1, x, by simp [hx], hpx⟩
      · rcases List.mem_cons.mp h with h1 | h1
        · exact Or.inr ⟨h1, a, by simp, hpa⟩
        · rcases ih h1 with h2 | ⟨h2, x, hx, hpx⟩
          · exact Or.inl (by simp [h2])
          · exact Or.inr ⟨h2, x, by simp [hx], hpx⟩
    · rcases List.mem_cons.mp h with h1 | h1
      · exact Or.inl (by simp [h1])
      · rcases ih h1 with h2 | ⟨h2, x, hx, hpx⟩
        · exact Or.inl (by simp [h2])
        · exact Or.inr ⟨h2, x, by simp [hx], hpx⟩

theorem lazySplit_sound {T : List Char → Option (List Char)} :
    ∀ {l g1 g2}, lazySplit T l = some (g1, g2) →
      ∃ rest, l = g1 ++ rest ∧ T rest = some g2 ∧ g1 ≠ [] := by
  intro l
  induction l with
  | nil => intro g1 g2 h; cases h
  | cons c cs ih =>
    intro g1 g2 h
    rw [lazySplit] at h
    by_cases hnl : c = '\n'
    · rw [if_pos hnl] at h
      cases h
    · rw [if_neg hnl] at h
      rcases hT : T cs with _ | g2'
      · rw [hT] at h
        rcases hls : lazySplit T cs with _ | ⟨g1', g2''⟩
        · rw [hls] at h
          cases h
        · rw [hls] at h
          have h' : some ((c :: g1', g2'')) = some ((g1, g2)) := h
          cases h'
          obtain ⟨rest, hrest, hTr, hne⟩ := ih hls
          exact ⟨rest, by rw [List.cons_append, ← hrest], hTr, by simp⟩
      · rw [hT] at h
        have h' : some (([c], g2')) = some ((g1, g2)) := h
        cases h'
        exact ⟨cs, rfl, hT, by simp⟩

theorem lazySplit_build {T : List Char → Option (List Char)} :
    ∀ {l : List Char} {k : Nat} {g2}, 1 ≤ k → k ≤ l.length →
      (∀ c ∈ l.take k, c ≠ '\n') →
      (∀ j, 1 ≤ j → j < k → T (l.drop j) = none) →
      T (l.drop k) = some g2 →
      lazySplit T l = some (l.take k, g2) := by
  intro l
  induction l with
  | nil =>
    intro k g2 hk hkle _ _ _
    simp at hkle
    omega
  | cons c cs ih =>
    intro k g2 hk hkle htake hfail hT
    have hcnl : c ≠ '\n' := htake c (by
      rcases Nat.exists_eq_add_of_le hk with ⟨m, rfl⟩
      rw [Nat.add_comm, List.take_succ_cons]
      exact List.mem_cons_self _ _)
    rw [lazySplit, if_neg hcnl]
    rcases Nat.lt_or_ge 1 k with hk2 | hk1
    · have hTcs : T cs = none := hfail 1 le_rfl hk2
      rw [hTcs]
      have hlen : k - 1 ≤ cs.length := by
        simp only [List.length_cons] at hkle
        omega
      have hrec := @ih (k - 1) g2 (by omega) hlen
        (by
          intro x hx
          refine htake x ?_
          have hkk : k = (k - 1) + 1 := by omega
          rw [hkk, List.take_succ_cons]
          exact List.mem_cons_of_mem _ hx)
        (by
          intro j hj hjk
          exact hfail (j + 1) (by omega) (by omega))
        (by
          have hkk : k = (k - 1) + 1 := by omega
          rw [hkk] at hT
          exact hT)
      rw [hrec]
      have hkk : (k - 1) + 1 = k := by omega
      rw [← hkk, List.take_succ_cons]
      rfl
    · have hk1' : k = 1 := by omega
      subst hk1'
      have hTcs : T cs = some g2 := hT
      rw [hTcs]
      simp [List.take_succ_cons]

theorem commaGroups_append : ∀ l : List Char, (commaGroups l).1 ++ (commaGroups l).2 = l := by
  intro l
  induction l using commaGroups.induct with
  | case1 a b c rest hdig ih =>
    rw [commaGroups, if_pos hdig]
    simpa using ih
  | case2 a b c rest hdig =>
    rw [commaGroups, if_neg hdig]
    simp
  | case3 l hl =>
    rw [commaGroups.eq_def]
    split
    · rename_i a b c rest
      exact absurd rfl (hl a b c rest)
    · simp

theorem commaGroups_chars :
    ∀ l : List Char, ∀ c ∈ (commaGroups l).1, isDigitB c = true ∨ c = ',' := by
  intro l
  induction l using commaGroups.induct with
  | case1 a b c rest hdig ih =>
    rw [commaGroups, if_pos hdig]
    intro x hx
    simp only [Bool.and_eq_true] at hdig
    rcases List.mem_cons.mp hx with h1 | h1
    · exact Or.inr h1
    · rcases List.mem_cons.mp h1 with h2 | h2
      · exact Or.inl (h2 ▸ hdig.1.1)
      · rcases List.mem_cons.mp h2 with h3 | h3
        · exact Or.inl (h3 ▸ hdig.1.2)
        · rcases List.mem_cons.mp h3 with h4 | h4
          · exact Or.inl (h4 ▸ hdig.2)
          · exact ih x h4
  | case2 a b c rest hdig =>
    rw [commaGroups, if_neg hdig]
    intro x hx
    cases hx
  | case3 l hl =>
    rw [commaGroups.eq_def]
    split
    · rename_i a b c rest
      exact absurd rfl (hl a b c rest)
    · intro x hx
      cases hx

theorem amtCore_sound {l m r : List Char} (h : amtCore l = some (m, r)) :
    l = m ++ r ∧ (∀ c ∈ m, isDigitB c = true ∨ c = ',' ∨ c = '.') ∧
    ∃ pre x y, m = pre ++ '.' :: x :: y :: [] := by
  unfold amtCore at h
  split at h
  · cases h
  · rename_i hguard
    split at h
    · rename_i x y r3 heq
      split at h
      · rename_i hxy
        have h' :
            some ((l.takeWhile isDigitB ++ (commaGroups (l.dropWhile isDigitB)).1 ++
              '.' :: x :: y :: [], r3)) = some ((m, r)) := h
        cases h'
        refine ⟨?_, ?_, ?_⟩
        · have h1 := commaGroups_append (l.dropWhile isDigitB)
          rw [heq] at h1
          generalize hG : (commaGroups (l.dropWhile isDigitB)).1 = G at h1 ⊢
          conv_lhs => rw [← List.takeWhile_append_dropWhile (p := isDigitB) (l := l), ← h1]
          simp
        · intro c hc
          simp only [List.append_assoc, List.mem_append, List.mem_cons] at hc
          rcases hc with hc | hc | hc
          · exact Or.inl (List.mem_takeWhile_imp hc)
          · rcases commaGroups_chars (l.dropWhile isDigitB) c hc with h3 | h3
            · exact Or.inl h3
            · exact Or.inr (Or.inl h3)
          · rcases hc with rfl | rfl | rfl | hfalse
            · exact Or.inr (Or.inr rfl)
            · exact Or.inl hxy.1
            · exact Or.inl hxy.2
            · cases hfalse
        · exact ⟨l.takeWhile isDigitB ++ (commaGroups (l.dropWhile isDigitB)).1, x, y, by simp⟩
      · cases h
    · cases h

theorem tailCurrencyCommas_sound {t g2 : List Char} (h : tailCurrencyCommas t = some g2) :
    (∀ c ∈ g2, isDigitB c = true ∨ c = ',' ∨ c = '.') ∧
    ∃ pre x y r, t = pre ++ '.' :: x :: y :: r ∧ r.all wsB := by
  unfold tailCurrencyCommas at h
  split at h
  · cases h
  · split at h
    · rename_i t2 heq
      split at h
      · rename_i m r hamt
        split at h
        · rename_i hws
          have h' : some m = some g2 := h
          cases h'
          obtain ⟨hsplit, hchars, pre0, x, y, hm⟩ := amtCore_sound hamt
          refine ⟨hchars, t.takeWhile wsB ++ '$' :: t2.takeWhile wsB ++ pre0, x, y, r, ?_, hws⟩
          have ht : t = t.takeWhile wsB ++ t.dropWhile wsB := by
            rw [List.takeWhile_append_dropWhile]
          have ht2 : t2 = t2.takeWhile wsB ++ t2.dropWhile wsB := by
            rw [List.takeWhile_append_dropWhile]
          rw [hm] at hsplit
          calc t = t.takeWhile wsB ++ t.dropWhile wsB := ht
            _ = t.takeWhile wsB ++ ('$' :: t2) := by rw [heq]
            _ = t.takeWhile wsB ++ ('$' :: (t2.takeWhile wsB ++ t2.dropWhile wsB)) := by
                rw [← ht2]
            _ = t.takeWhile wsB ++ ('$' :: (t2.takeWhile wsB ++ (pre0 ++ '.' :: x :: y :: [] ++ r))) := by
                rw [← hsplit]
            _ = t.takeWhile wsB ++ '$' :: t2.takeWhile wsB ++ pre0 ++ '.' :: x :: y :: r := by
                simp
        · cases h
      · cases h
    · cases h

theorem tailUsd_sound {t g2 : List Char} (h : tailUsd t = some g2) :
    (∀ c ∈ g2, isDigitB c = true ∨ c = ',' ∨ c = '.') ∧
    ∃ pre x y r, t = pre ++ '.' :: x :: y :: r ∧ r.all wsB := by
  unfold tailUsd at h
  split at h
  · cases h
  · split at h
    · rename_i u s d t2 heq
      split at h
      · split at h
        · rename_i m r hamt
          split at h
          · rename_i hws
            have h' : some m = some g2 := h
            cases h'
            obtain ⟨hsplit, hchars, pre0, x, y, hm⟩ := amtCore_sound hamt
            refine ⟨hchars, t.takeWhile wsB ++ u :: s :: d :: t2.takeWhile wsB ++ pre0, x, y, r, ?_, hws⟩
            have ht2 : t2 = t2.takeWhile wsB ++ t2.dropWhile wsB := by
              rw [List.takeWhile_append_dropWhile]
            rw [hm] at hsplit
            calc t = t.takeWhile wsB ++ t.dropWhile wsB := by
                  rw [List.takeWhile_append_dropWhile]
              _ = t.takeWhile wsB ++ (u :: s :: d :: t2) := by rw [heq]
              _ = t.takeWhile wsB ++
                  (u :: s :: d :: (t2.takeWhile wsB ++ t2.dropWhile wsB)) := by rw [← ht2]
              _ = t.takeWhile wsB ++
                  (u :: s :: d :: (t2.takeWhile wsB ++ (pre0 ++ '.' :: x :: y :: [] ++ r))) := by
                  rw [← hsplit]
              _ = t.takeWhile wsB ++ u :: s :: d :: t2.takeWhile wsB ++ pre0 ++
                  '.' :: x :: y :: r := by simp
          · cases h
        · cases h
      · cases h
    · cases h

theorem tailSimpleCurrency_sound {t g2 : List Char} (h : tailSimpleCurrency t = some g2) :
    (∀ c ∈ g2, isDigitB c = true ∨ c = ',' ∨ c = '.') ∧
    ∃ pre x y r, t = pre ++ '.' :: x :: y :: r ∧ r.all wsB := by
  unfold tailSimpleCurrency at h
  split at h
  · cases h
  · split at h
    · rename_i t2 heq
      split at h
      · cases h
      · rename_i hdne
        split at h
        · rename_i x y r heq2
          split at h
          · rename_i hcond
            have h' : some (t2.takeWhile isDigitB ++ '.' :: x :: y :: []) = some g2 := h
            cases h'
            constructor
            · intro c hc
              rcases List.mem_append.mp hc with hc | hc
              · exact Or.inl (List.mem_takeWhile_imp hc)
              · rcases List.mem_cons.mp hc with rfl | hc
                · exact Or.inr (Or.inr rfl)
                · rcases List.mem_cons.mp hc with rfl | hc
                  · exact Or.inl hcond.1
                  · rcases List.mem_cons.mp hc with rfl | hc
                    · exact Or.inl hcond.2.1
                    · cases hc
            · refine ⟨t.takeWhile wsB ++ '$' :: t2.takeWhile isDigitB, x, y, r, ?_, hcond.2.2⟩
              calc t = t.takeWhile wsB ++ t.dropWhile wsB := by
                    rw [List.takeWhile_append_dropWhile]
                _ = t.takeWhile wsB ++ ('$' :: t2) := by rw [heq]
                _ = t.takeWhile wsB ++
                    ('$' :: (t2.takeWhile isDigitB ++ t2.dropWhile isDigitB)) := by
                    rw [List.takeWhile_append_dropWhile]
                _ = t.takeWhile wsB ++ ('$' :: (t2.takeWhile isDigitB ++ ('.' :: x :: y :: r))) := by
                    rw [heq2]
                _ = t.takeWhile wsB ++ '$' :: t2.takeWhile isDigitB ++ '.' :: x :: y :: r := by
                    simp
          · cases h
        · cases h
    · cases h

theorem tailDecimalAmount_sound {t g2 : List Char} (h : tailDecimalAmount t = some g2) :
    (∀ c ∈ g2, isDigitB c = true ∨ c = ',' ∨ c = '.') ∧
    ∃ pre x y r, t = pre ++ '.' :: x :: y :: r ∧ r.all wsB := by
  unfold tailDecimalAmount at h
  split at h
  · cases h
  · split at h
    · rename_i m r hamt
      split at h
      · rename_i hws
        have h' : some m = some g2 := h
        cases h'
        obtain ⟨hsplit, hchars, pre0, x, y, hm⟩ := amtCore_sound hamt
        refine ⟨hchars, t.takeWhile wsB ++ pre0, x, y, r, ?_, hws⟩
        rw [hm] at hsplit
        calc t = t.takeWhile wsB ++ t.dropWhile wsB := by
              rw [List.takeWhile_append_dropWhile]
          _ = t.takeWhile wsB ++ (pre0 ++ '.' :: x :: y :: [] ++ r) := by rw [← hsplit]
          _ = t.takeWhile wsB ++ pre0 ++ '.' :: x :: y :: r := by simp
      · cases h
    · cases h

theorem tailWholeDollar_chars {t g2 : List Char} (h : tailWholeDollar t = some g2) :
    ∀ c ∈ g2, isDigitB c = true := by
  unfold tailWholeDollar at h
  split at h
  · cases h
  · split at h
    · rename_i t2 heq
      split at h
      · cases h
      · split at h
        · have h' : some (t2.takeWhile isDigitB) = some g2 := h
          cases h'
          exact fun c hc => List.mem_takeWhile_imp hc
        · cases h
    · cases h

theorem tailLooseAfter_chars {t2 g2 : List Char} (h : tailLooseAfter t2 = some g2) :
    ∀ c ∈ g2, isDigitB c = true ∨ c = '.' := by
  unfold tailLooseAfter at h
  split at h
  · cases h
  · split at h
    · rename_i r heq
      split at h
      · have h' : some ((t2.dropWhile wsB).takeWhile isDigitB ++
            '.' :: r.takeWhile isDigitB) = some g2 := h
        cases h'
        intro c hc
        rcases List.mem_append.mp hc with hc | hc
        · exact Or.inl (List.mem_takeWhile_imp hc)
        · rcases List.mem_cons.mp hc with rfl | hc
          · exact Or.inr rfl
          · exact Or.inl (List.mem_takeWhile_imp hc)
      · cases h
    · split at h
      · have h' : some ((t2.dropWhile wsB).takeWhile isDigitB) = some g2 := h
        cases h'
        exact fun c hc => Or.inl (List.mem_takeWhile_imp hc)
      · cases h

theorem tailLooseNumeric_chars {t g2 : List Char} (h : tailLooseNumeric t = some g2) :
    ∀ c ∈ g2, isDigitB c = true ∨ c = '.' := by
  unfold tailLooseNumeric at h
  split at h
  · exact tailLooseAfter_chars h
  · exact tailLooseAfter_chars h

/-! ## `parse_amount` can only fail with `ValidationError` on the amount
groups captured by the pattern library -/

theorem nanTail_false {body : List Char} (h : ∀ c ∈ body, isDigitB c = true ∨ c = '.')
    {c0 : Char} (hc0 : isDigitB c0 = false ∧ c0 ≠ '.') {p' : List Char} :
    nanTail body (c0 :: p') = false := by
  unfold nanTail
  cases body with
  | nil => rfl
  | cons b bs =>
    have hb := h b (by simp)
    have hne : (c0 == b.toLower) = false := by
      rcases hb with hb | rfl
      · rw [toLower_of_digit hb]
        cases hcb : (c0 == b)
        · rfl
        · exfalso
          have : c0 = b := by simpa using hcb
          subst this
          rw [hb] at hc0
          exact absurd hc0.1 (by simp)
      · cases hcb : (c0 == '.'.toLower)
        · rfl
        · exfalso
          have : c0 = '.' := by simpa using hcb
          exact hc0.2 this
    simp only [List.map_cons]
    have : (c0 :: p').isPrefixOf (b.toLower :: bs.map Char.toLower) = false := by
      show (c0 == b.toLower && p'.isPrefixOf (bs.map Char.toLower)) = false
      rw [hne]
      rfl
    rw [this]
    rfl

theorem decBody_not_nan {sign : Bool} {body : List Char}
    (h : ∀ c ∈ body, isDigitB c = true ∨ c = '.') :
    decBody sign body ≠ some PyDec.nanv := by
  intro hd
  unfold decBody at hd
  split at hd
  · split at hd <;> cases hd
  · split at hd
    · rename_i hnan
      rw [nanTail_false h (by decide), nanTail_false h (by decide)] at hnan
      cases hnan
    · split at hd
      · cases hd
      · cases hd

theorem decOf_not_nan {s : String} (h : ∀ c ∈ s.data, isDigitB c = true ∨ c = '.') :
    decOfString? s ≠ some PyDec.nanv := by
  intro hd
  have hf : ∀ c ∈ (stripWsL s.data).filter (fun c => c ≠ '_'),
      isDigitB c = true ∨ c = '.' :=
    fun c hc => h c (mem_stripWsL (List.mem_of_mem_filter hc))
  unfold decOfString? at hd
  split at hd
  · rename_i hok
    split at hd
    · cases hd
    · rename_i t hl
      refine decBody_not_nan (fun c hc => hf c ?_) hd
      rw [hl]
      exact List.mem_cons_of_mem _ hc
    · rename_i t hl
      refine decBody_not_nan (fun c hc => hf c ?_) hd
      rw [hl]
      exact List.mem_cons_of_mem _ hc
    · exact decBody_not_nan hf hd
  · cases hd

theorem parse_amount_not_valueError (s : String) :
    parse_amount s ≠ .error .valueError := by
  unfold parse_amount
  split
  · simp
  · split
    · simp
    · simp
    · simp
    · simp
    · split
      · simp
      · split
        · simp
        · simp

theorem parse_amount_ok_min {s : String} {a : ℚ} (h : parse_amount s = .ok a) :
    min_amount ≤ a := by
  unfold parse_amount at h
  split at h
  · cases h
  · split at h
    · cases h
    · cases h
    · cases h
    · cases h
    · rename_i q hdec
      split at h
      · cases h
      · rename_i hlt
        split at h
        · cases h
        · cases h
          exact not_lt.mp hlt

theorem clean_amount_chars {g2 : List Char}
    (hch : ∀ c ∈ g2, isDigitB c = true ∨ c = ',' ∨ c = '.') :
    ∀ c ∈ (clean_amount_string ⟨g2⟩).data, isDigitB c = true ∨ c = '.' := by
  have hnoU : ∀ x ∈ replaceChar '$' [] g2, x ≠ 'U' := by
    intro x hx he
    subst he
    rcases hch _ (mem_replaceChar_nil hx).1 with h1 | h1 | h1
    · exact absurd h1 (by decide)
    · cases h1
    · cases h1
  have hbase : ∀ c ∈ replaceChar ',' [] (stripWsL (replaceUSD (replaceChar '$' [] g2))),
      isDigitB c = true ∨ c = '.' := by
    intro c hc
    obtain ⟨hc1, hc2⟩ := mem_replaceChar_nil hc
    rw [replaceUSD_eq_self hnoU] at hc1
    have hc3 := mem_stripWsL hc1
    obtain ⟨hc4, -⟩ := mem_replaceChar_nil hc3
    rcases hch c hc4 with h1 | h1 | h1
    · exact Or.inl h1
    · exact absurd h1 hc2
    · exact Or.inr h1
  intro c hc
  simp only [clean_amount_string, String.data] at hc
  split at hc
  · rcases List.mem_append.mp hc with hc1 | hc1
    · exact hbase c (List.mem_of_mem_take hc1)
    · rcases List.mem_cons.mp hc1 with rfl | hc2
      · exact Or.inr rfl
      · exact hbase c (List.mem_of_mem_drop hc2)
  · exact hbase c hc

theorem parse_amount_group_not_invalidOp {g2 : List Char}
    (hch : ∀ c ∈ g2, isDigitB c = true ∨ c = ',' ∨ c = '.') :
    parse_amount ⟨g2⟩ ≠ .error .invalidOperation := by
  intro h
  unfold parse_amount at h
  split at h
  · exact absurd h (by simp)
  · split at h
    · exact absurd h (by simp)
    · rename_i hdec
      exact decOf_not_nan (clean_amount_chars hch) hdec
    · exact absurd h (by simp)
    · exact absurd h (by simp)
    · split at h
      · exact absurd h (by simp)
      · split at h
        · exact absurd h (by simp)
        · exact absurd h (by simp)

/-! ## Totality and per-line characterization of the line loop -/

theorem sorted_patterns_g2_chars :
    ∀ p ∈ sorted_patterns, ∀ s g1 g2, p.matcher s = some (g1, g2) →
      ∀ c ∈ g2, isDigitB c = true ∨ c = ',' ∨ c = '.' := by
  intro p hp
  rw [show sorted_patterns = default_patterns from rfl] at hp
  simp only [default_patterns, List.mem_cons, List.not_mem_nil, or_false] at hp
  rcases hp with rfl | rfl | rfl | rfl | rfl | rfl <;> intro s g1 g2 h c hc <;>
    obtain ⟨rest, -, hT, -⟩ := lazySplit_sound h
  · exact (tailCurrencyCommas_sound hT).1 c hc
  · exact (tailUsd_sound hT).1 c hc
  · exact (tailSimpleCurrency_sound hT).1 c hc
  · exact (tailDecimalAmount_sound hT).1 c hc
  · exact Or.inl (tailWholeDollar_chars hT c hc)
  · rcases tailLooseNumeric_chars hT c hc with h1 | h1
    · exact Or.inl h1
    · exact Or.inr (Or.inr h1)

theorem patLoop_ok (cleaned : List Char) (raw : String) (n : Nat) :
    ∀ ps : List ParsingPattern,
      (∀ p ∈ ps, ∀ s g1 g2, p.matcher s = some (g1, g2) →
        ∀ c ∈ g2, isDigitB c = true ∨ c = ',' ∨ c = '.') →
      ∃ o, patLoop cleaned raw n ps = .ok o := by
  intro ps
  induction ps with
  | nil => exact fun _ => ⟨none, rfl⟩
  | cons p ps ih =>
    intro h
    rcases hm : p.matcher cleaned with _ | ⟨g1, g2⟩
    · have hstep : patLoop cleaned raw n (p :: ps) = patLoop cleaned raw n ps := by
        simp only [patLoop, hm]
      rw [hstep]
      exact ih (fun q hq => h q (List.mem_cons_of_mem _ hq))
    · by_cases hv : clean_vendor_name ⟨g1⟩ = ""
      · have hstep : patLoop cleaned raw n (p :: ps) = patLoop cleaned raw n ps := by
          simp only [patLoop, hm]
          rw [if_pos hv]
        rw [hstep]
        exact ih (fun q hq => h q (List.mem_cons_of_mem _ hq))
      · rcases hpa : parse_amount ⟨g2⟩ with e | a
        · cases e with
          | validationError =>
            have hstep : patLoop cleaned raw n (p :: ps) = patLoop cleaned raw n ps := by
              simp only [patLoop, hm]
              rw [if_neg hv, hpa]
            rw [hstep]
            exact ih (fun q hq => h q (List.mem_cons_of_mem _ hq))
          | invalidOperation =>
            exact absurd hpa
              (parse_amount_group_not_invalidOp (h p (by simp) cleaned g1 g2 hm))
          | valueError => exact absurd hpa (parse_amount_not_valueError ⟨g2⟩)
        · refine ⟨some ⟨n, raw, clean_vendor_name ⟨g1⟩, some a, p.confidence, p.name⟩, ?_⟩
          simp only [patLoop, hm]
          rw [if_neg hv, hpa]

theorem patLoop_first_success (cleaned : List Char) (raw : String) (n : Nat) :
    ∀ ps pl, patLoop cleaned raw n ps = .ok (some pl) →
      ∃ ps₁ p ps₂, ps = ps₁ ++ p :: ps₂ ∧
        (∀ q ∈ ps₁, patternRejects q ⟨cleaned⟩) ∧
        patternAccepts p ⟨cleaned⟩ raw n pl := by
  intro ps
  induction ps with
  | nil =>
    intro pl h
    exact absurd h (by simp [patLoop])
  | cons p ps ih =>
    intro pl h
    have hrecase : ∀ hq : patternRejects p ⟨cleaned⟩,
        patLoop cleaned raw n ps = .ok (some pl) →
        ∃ ps₁ p' ps₂, p :: ps = ps₁ ++ p' :: ps₂ ∧
          (∀ q ∈ ps₁, patternRejects q ⟨cleaned⟩) ∧
          patternAccepts p' ⟨cleaned⟩ raw n pl := by
      intro hq h2
      obtain ⟨ps₁, p', ps₂, hps, hrej, hacc⟩ := ih pl h2
      refine ⟨p :: ps₁, p', ps₂, by rw [hps]; rfl, ?_, hacc⟩
      intro q hqmem
      rcases List.mem_cons.mp hqmem with rfl | hqmem
      · exact hq
      · exact hrej q hqmem
    rcases hm : p.matcher cleaned with _ | ⟨g1, g2⟩
    · have h2 : patLoop cleaned raw n ps = .ok (some pl) := by
        simp only [patLoop, hm] at h
        exact h
      exact hrecase (Or.inl hm) h2
    · by_cases hv : clean_vendor_name ⟨g1⟩ = ""
      · have h2 : patLoop cleaned raw n ps = .ok (some pl) := by
          simp only [patLoop, hm] at h
          rw [if_pos hv] at h
          exact h
        exact hrecase (Or.inr ⟨g1, g2, hm, Or.inl hv⟩) h2
      · rcases hpa : parse_amount ⟨g2⟩ with e | a
        · cases e with
          | validationError =>
            have h2 : patLoop cleaned raw n ps = .ok (some pl) := by
              simp only [patLoop, hm] at h
              rw [if_neg hv, hpa] at h
              exact h
            exact hrecase (Or.inr ⟨g1, g2, hm, Or.inr ⟨hv, hpa⟩⟩) h2
          | invalidOperation =>
            simp only [patLoop, hm] at h
            rw [if_neg hv, hpa] at h
            exact absurd h (by simp)
          | valueError =>
            simp only [patLoop, hm] at h
            rw [if_neg hv, hpa] at h
            exact absurd h (by simp)
        · simp only [patLoop, hm] at h
          rw [if_neg hv, hpa] at h
          have h' : some (⟨n, raw, clean_vendor_name ⟨g1⟩, some a, p.confidence, p.name⟩ :
              ParsedLine) = some pl := by
            simpa using h
          cases h'
          exact ⟨[], p, ps, rfl, by simp, g1, g2, a, hm, hv, hpa, rfl⟩

theorem parse_line_ok (line : String) (n : Nat) :
    ∃ o, parse_line line n = .ok o := by
  unfold parse_line
  split
  · exact ⟨none, rfl⟩
  · exact patLoop_ok _ _ _ _ sorted_patterns_g2_chars

theorem parse_line_amount_min {line : String} {n : Nat} {pl : ParsedLine}
    (h : parse_line line n = .ok (some pl)) :
    ∃ a, pl.amount = some a ∧ min_amount ≤ a := by
  unfold parse_line at h
  split at h
  · exact absurd h (by simp)
  · obtain ⟨ps₁, p, ps₂, -, -, hacc⟩ := patLoop_first_success _ _ _ _ _ h
    obtain ⟨g1, g2, a, -, -, hpa, rfl⟩ := hacc
    exact ⟨a, rfl, parse_amount_ok_min hpa⟩

theorem lineStep_eq (n : Nat) (l : String) : lineStep n l = .ok (lineItemOf n l) := by
  rcases hp : parse_line l n with e | o
  · obtain ⟨o, ho⟩ := parse_line_ok l n
    rw [ho] at hp
    cases hp
  · cases o with
    | none => simp only [lineStep, lineItemOf, hp]
    | some pl =>
      obtain ⟨a, ha, hmin⟩ := parse_line_amount_min hp
      have hok : mkReceiptItem pl.vendor a "" pl.line_number pl.confidence pl.raw_text =
          .ok ⟨pyStrip pl.vendor, a, pyStrip "", pl.line_number, pl.confidence, pl.raw_text⟩ := by
        unfold mkReceiptItem
        rw [if_neg (not_lt.mpr ((show (0 : ℚ) ≤ min_amount by decide).trans hmin))]
      simp only [lineStep, lineItemOf, hp, ha, hok, Except.toOption]

theorem parseLoop_eq : ∀ (ls : List String) (n : Nat),
    parseLoop n ls = .ok ((List.enumFrom n ls).filterMap (fun p => lineItemOf p.1 p.2)) := by
  intro ls
  induction ls with
  | nil => intro n; rfl
  | cons l ls ih =>
    intro n
    have hstep : parseLoop n (l :: ls) =
        match lineItemOf n l with
        | none => parseLoop (n + 1) ls
        | some item =>
          match parseLoop (n + 1) ls with
          | .error e => .error e
          | .ok items => .ok (item :: items)
        := by
      rw [parseLoop, lineStep_eq n l]
      rcases lineItemOf n l with _ | item
      · rfl
      · rfl
    rw [hstep]
    rcases hio : lineItemOf n l with _ | item
    · rw [ih (n + 1)]
      simp [List.enumFrom, List.filterMap_cons, hio]
    · rw [ih (n + 1)]
      simp [List.enumFrom, List.filterMap_cons, hio]

theorem stripWsL_eq_nil_iff {l : List Char} : stripWsL l = [] ↔ ∀ c ∈ l, wsB c = true := by
  rw [stripWsL_as_rdrop, List.rdropWhile_eq_nil_iff]
  constructor
  · intro h c hc
    have hsplit := List.takeWhile_append_dropWhile (p := wsB) (l := l)
    rw [← hsplit] at hc
    rcases List.mem_append.mp hc with hc1 | hc1
    · exact List.mem_takeWhile_imp hc1
    · exact h _ hc1
  · intro h x hx
    exact h x ((List.dropWhile_sublist wsB).subset hx)

set_option maxHeartbeats 1000000 in
theorem mem_splitLinesL : ∀ (n : Nat) (l : List Char), l.length ≤ n →
    ∀ line ∈ splitLinesL l, ∀ c ∈ line, c ∈ l := by
  intro n
  induction n with
  | zero =>
    intro l hl line hline c hc
    have : l = [] := List.length_eq_zero.mp (Nat.le_zero.mp hl)
    subst this
    cases hline
  | succ n ih =>
    intro l hl line hline c hc
    rw [splitLinesL.eq_def] at hline
    split at hline
    · cases hline
    · rename_i rest
      rcases List.mem_cons.mp hline with rfl | hline2
      · cases hc
      · have : c ∈ rest := by
          refine ih rest ?_ line hline2 c hc
          simp only [List.length_cons] at hl
          omega
        simp [this]
    · rename_i c0 cs hne
      split at hline
      · rcases List.mem_cons.mp hline with rfl | hline2
        · cases hc
        · have : c ∈ cs := by
            refine ih cs ?_ line hline2 c hc
            simp only [List.length_cons] at hl
            omega
          simp [this]
      · rename_i hnb
        rcases hsp : splitLinesL cs with _ | ⟨l0, ls⟩
        · rw [hsp] at hline
          rcases List.mem_singleton.mp hline with rfl
          rcases List.mem_singleton.mp hc with rfl
          simp
        · rw [hsp] at hline
          rcases List.mem_cons.mp hline with rfl | hline2
          · rcases List.mem_cons.mp hc with rfl | hc2
            · simp
            · have hl0 : l0 ∈ splitLinesL cs := by
                rw [hsp]
                simp
              have : c ∈ cs := by
                refine ih cs ?_ l0 hl0 c hc2
                simp only [List.length_cons] at hl
                omega
              simp [this]
          · have hlm : line ∈ splitLinesL cs := by
              rw [hsp]
              simp [hline2]
            have : c ∈ cs := by
              refine ih cs ?_ line hlm c hc
              simp only [List.length_cons] at hl
              omega
            simp [this]

theorem clean_line_allws {s : String} (h : ∀ c ∈ s.data, wsB c = true) :
    ∀ c ∈ (clean_line s).data, wsB c = true := by
  intro c hc
  unfold clean_line at hc
  split at hc
  · simp at hc
  · have hc1 := mem_stripWsL hc
    rcases mem_collapseRunsAux hc1 with hc2 | ⟨rfl, x, hx, hpx⟩
    · have hc3 := List.mem_of_mem_filter hc2
      have hc4 := mem_stripWsL hc3
      rcases mem_collapseRunsAux hc4 with hc5 | ⟨rfl, -⟩
      · exact h c hc5
      · decide
    · have hx' : x = '$' := by simpa using hpx
      subst hx'
      have hdollar : wsB '$' = true := by
        have h1 := List.mem_of_mem_filter hx
        have h2 := mem_stripWsL h1
        rcases mem_collapseRunsAux h2 with h3 | ⟨h3, -⟩
        · exact h _ h3
        · rw [h3]
          decide
      exact absurd hdollar (by decide)

theorem parse_line_of_allws {l : String} (h : ∀ c ∈ l.data, wsB c = true) (n : Nat) :
    parse_line l n = .ok none := by
  unfold parse_line
  rw [if_pos]
  have hnil : stripWsL (clean_line l).data = [] :=
    stripWsL_eq_nil_iff.mpr (clean_line_allws h)
  simp [should_ignore_line, hnil]

theorem parse_receipt_text_eq :
    ∀ text : String, parse_receipt_text text = .ok (receiptItemsOf text) := by
  intro text
  unfold parse_receipt_text
  split
  · rename_i hstrip
    have hall : ∀ c ∈ text.data, wsB c = true := stripWsL_eq_nil_iff.mp hstrip
    have hempty : receiptItemsOf text = [] := by
      unfold receiptItemsOf
      refine List.filterMap_eq_nil_iff.mpr ?_
      intro p hp
      have hline := List.snd_mem_of_mem_enumFrom hp
      have hws : ∀ c ∈ ((⟨p.2⟩ : String) : String).data, wsB c = true := by
        intro c hc
        exact hall c (mem_splitLinesL (text.data.length) text.data le_rfl p.2 hline c hc)
      simp [lineItemOf, parse_line_of_allws hws]
    rw [hempty]
  · rw [parseLoop_eq]
    unfold receiptItemsOf
    rw [List.enumFrom_map, List.filterMap_map]
    rfl

theorem containsSub_eq_true_iff (pat : List Char) :
    ∀ l, containsSub pat l = true ↔ pat <:+: l := by
  intro l
  induction l with
  | nil =>
    rw [containsSub, List.isPrefixOf_iff_prefix]
    constructor
    · intro h
      exact h.isInfix
    · intro h
      obtain ⟨s, t, he⟩ := h
      rcases List.append_eq_nil.mp he with ⟨he1, rfl⟩
      rcases List.append_eq_nil.mp he1 with ⟨rfl, rfl⟩
      simp
  | cons c cs ih =>
    rw [containsSub, Bool.or_eq_true, List.isPrefixOf_iff_prefix, ih]
    exact List.infix_cons_iff.symm

theorem infix_reverse_of {w l : List Char} (h : w <:+: l) : w.reverse <:+: l.reverse := by
  obtain ⟨s, t, rfl⟩ := h
  exact ⟨t.reverse, s.reverse, by simp⟩

theorem map_infix_decomp {f : Char → Char} {w l : List Char}
    (h : w <:+: l.map f) : ∃ w', w' <:+: l ∧ w'.map f = w := by
  obtain ⟨s, t, hst⟩ := h
  refine ⟨(l.drop s.length).take w.length, ?_, ?_⟩
  · exact (List.take_prefix _ _).isInfix.trans (List.drop_suffix _ _).isInfix
  · rw [List.map_take, List.map_drop, ← hst, List.append_assoc, List.drop_left,
      List.take_left]

theorem infix_dropWhile_of_all {p : Char → Bool} {w : List Char}
    (hw : ∀ c ∈ w, p c = false) (hne : w ≠ []) :
    ∀ (a t : List Char), w <:+: (a ++ w ++ t).dropWhile p := by
  intro a
  induction a with
  | nil =>
    intro t
    rw [List.nil_append]
    have heq : (w ++ t).dropWhile p = w ++ t := by
      cases w with
      | nil => exact absurd rfl hne
      | cons c cs =>
        have hc : ¬ (p c = true) := by simp [hw c (by simp)]
        rw [List.cons_append, List.dropWhile_cons, if_neg hc]
    rw [heq]
    exact ⟨[], t, by simp⟩
  | cons x a' ih =>
    intro t
    rw [List.cons_append, List.cons_append, List.dropWhile_cons]
    by_cases hx : p x = true
    · rw [if_pos hx]
      exact ih t
    · rw [if_neg hx]
      exact ⟨x :: a', t, by simp⟩

theorem infix_dropWhile_of {p : Char → Bool} {w l : List Char}
    (hw : ∀ c ∈ w, p c = false) (hne : w ≠ []) (h : w <:+: l) :
    w <:+: l.dropWhile p := by
  obtain ⟨a, t, rfl⟩ := h
  exact infix_dropWhile_of_all hw hne a t

theorem infix_stripWsL_of {w l : List Char} (hw : ∀ c ∈ w, wsB c = false)
    (hne : w ≠ []) (h : w <:+: l) : w <:+: stripWsL l := by
  have hne' : w.reverse ≠ [] := by simpa using hne
  have hw' : ∀ c ∈ w.reverse, wsB c = false := fun c hc => hw c (List.mem_reverse.mp hc)
  have h1 : w <:+: l.dropWhile wsB := infix_dropWhile_of hw hne h
  have h2 : w.reverse <:+: (l.dropWhile wsB).reverse := infix_reverse_of h1
  have h4 : w.reverse <:+: ((l.dropWhile wsB).reverse).dropWhile wsB :=
    infix_dropWhile_of hw' hne' h2
  have h5 := infix_reverse_of h4
  rw [List.reverse_reverse] at h5
  exact h5

theorem collapseRunsAux_append_of_all {p : Char → Bool} {r : Char} :
    ∀ (w t : List Char), (∀ c ∈ w, p c = false) →
      collapseRunsAux p r false (w ++ t) = w ++ collapseRunsAux p r false t := by
  intro w
  induction w with
  | nil => intro t _; rfl
  | cons c cs ih =>
    intro t hw
    have hc : ¬ (p c = true) := by simp [hw c (by simp)]
    have hstep : collapseRunsAux p r false ((c :: cs) ++ t) =
        c :: collapseRunsAux p r false (cs ++ t) := by
      show (if p c then (if (false : Bool) then collapseRunsAux p r true (cs ++ t)
          else r :: collapseRunsAux p r true (cs ++ t))
        else c :: collapseRunsAux p r false (cs ++ t)) = _
      rw [if_neg hc]
    rw [hstep, ih t (fun d hd => hw d (by simp [hd])), List.cons_append]

theorem infix_collapseRunsAux_of {p : Char → Bool} {r : Char} {w : List Char}
    (hw : ∀ c ∈ w, p c = false) (hne : w ≠ []) :
    ∀ (a : List Char) (flag : Bool) (t : List Char),
      w <:+: collapseRunsAux p r flag (a ++ w ++ t) := by
  intro a
  induction a with
  | nil =>
    intro flag t
    rw [List.nil_append]
    cases w with
    | nil => exact absurd rfl hne
    | cons c cs =>
      have hc : ¬ (p c = true) := by simp [hw c (by simp)]
      have hstep : collapseRunsAux p r flag ((c :: cs) ++ t) =
          c :: collapseRunsAux p r false (cs ++ t) := by
        show (if p c then (if flag then collapseRunsAux p r true (cs ++ t)
            else r :: collapseRunsAux p r true (cs ++ t))
          else c :: collapseRunsAux p r false (cs ++ t)) = _
        rw [if_neg hc]
      rw [hstep, collapseRunsAux_append_of_all cs t (fun d hd => hw d (by simp [hd]))]
      exact ⟨[], collapseRunsAux p r false t, by simp⟩
  | cons x a' ih =>
    intro flag t
    by_cases hx : p x = true
    · cases flag with
      | true =>
        have hstep : collapseRunsAux p r true ((x :: a') ++ w ++ t) =
            collapseRunsAux p r true (a' ++ w ++ t) := by
          show (if p x then (if (true : Bool) then collapseRunsAux p r true (a' ++ w ++ t)
              else r :: collapseRunsAux p r true (a' ++ w ++ t))
            else x :: collapseRunsAux p r false (a' ++ w ++ t)) = _
          rw [if_pos hx, if_pos rfl]
        rw [hstep]
        exact ih true t
      | false =>
        have hstep : collapseRunsAux p r false ((x :: a') ++ w ++ t) =
            r :: collapseRunsAux p r true (a' ++ w ++ t) := by
          show (if p x then (if (false : Bool) then collapseRunsAux p r true (a' ++ w ++ t)
              else r :: collapseRunsAux p r true (a' ++ w ++ t))
            else x :: collapseRunsAux p r false (a' ++ w ++ t)) = _
          rw [if_pos hx, if_neg (by simp)]
        rw [hstep]
        obtain ⟨s, u, he⟩ := ih true t
        exact ⟨r :: s, u, by rw [← he]; rfl⟩
    · have hstep : collapseRunsAux p r flag ((x :: a') ++ w ++ t) =
          x :: collapseRunsAux p r false (a' ++ w ++ t) := by
        show (if p x then (if flag then collapseRunsAux p r true (a' ++ w ++ t)
            else r :: collapseRunsAux p r true (a' ++ w ++ t))
          else x :: collapseRunsAux p r false (a' ++ w ++ t)) = _
        rw [if_neg hx]
      rw [hstep]
      obtain ⟨s, u, he⟩ := ih false t
      exact ⟨x :: s, u, by rw [← he]; rfl⟩

theorem infix_collapseRuns_of {p : Char → Bool} {r : Char} {w l : List Char}
    (hw : ∀ c ∈ w, p c = false) (hne : w ≠ []) (h : w <:+: l) :
    w <:+: collapseRuns p r l := by
  obtain ⟨a, t, rfl⟩ := h
  exact infix_collapseRunsAux_of hw hne a false t

theorem not_ws_of_alpha {x : Char} (h : x.isAlpha = true) : wsB x = false := by
  cases hw : wsB x
  · rfl
  · exfalso
    simp only [wsB, Bool.or_eq_true, decide_eq_true_eq] at hw
    rcases hw with ((((((((((rfl|rfl)|rfl)|rfl)|rfl)|rfl)|rfl)|rfl)|rfl)|rfl)|rfl) <;>
      exact absurd h (by decide)

theorem keepB_of_alpha {x : Char} (h : x.isAlpha = true) : keepB x = true := by
  simp [keepB, isWordB, h]

theorem not_dollar_of_alpha {x : Char} (h : x.isAlpha = true) :
    decide (x = '$') = false := by
  simp only [decide_eq_false_iff_not]
  rintro rfl
  exact absurd h (by decide)

theorem isAlpha_of_toLower {c : Char} (h : (Char.toLower c).isAlpha = true) :
    c.isAlpha = true := by
  by_cases hc : Char.toNat c ≥ 65 ∧ Char.toNat c ≤ 90
  · obtain ⟨h1, h2⟩ := hc
    have h1' : 65 ≤ c.val.toNat := h1
    have h2' : c.val.toNat ≤ 90 := h2
    simp only [Char.isAlpha, Char.isUpper, Bool.or_eq_true, Bool.and_eq_true,
      decide_eq_true_eq, ge_iff_le]
    left
    exact ⟨h1', h2'⟩
  · unfold Char.toLower at h
    rw [if_neg hc] at h
    exact h

theorem ignore_word_chars {w : String} (hw : w ∈ ignore_words) :
    w.data ≠ [] ∧ ∀ d ∈ w.data, d.isAlpha = true := by
  simp only [ignore_words, List.mem_cons, List.not_mem_nil, or_false] at hw
  rcases hw with rfl|rfl|rfl|rfl|rfl|rfl|rfl|rfl|rfl <;> exact ⟨by decide, by decide⟩

theorem infix_clean_line_of_alpha {w' : List Char} {l : String}
    (hal : ∀ c ∈ w', c.isAlpha = true) (hne : w' ≠ []) (h : w' <:+: l.data) :
    w' <:+: (clean_line l).data := by
  have hws : ∀ c ∈ w', wsB c = false := fun c hc => not_ws_of_alpha (hal c hc)
  have hkeep : ∀ c ∈ w', keepB c = true := fun c hc => keepB_of_alpha (hal c hc)
  have hdl : ∀ c ∈ w', decide (c = '$') = false :=
    fun c hc => not_dollar_of_alpha (hal c hc)
  unfold clean_line
  split
  · rename_i hl
    rw [hl] at h
    obtain ⟨s, t, he⟩ := h
    rcases List.append_eq_nil.mp he with ⟨he1, rfl⟩
    rcases List.append_eq_nil.mp he1 with ⟨rfl, hw0⟩
    exact absurd hw0 hne
  · show w' <:+: stripWsL (collapseRuns (fun c => c = '$') '$'
      ((stripWsL (collapseRuns wsB ' ' l.data)).filter keepB))
    have h2 : w' <:+: stripWsL (collapseRuns wsB ' ' l.data) :=
      infix_stripWsL_of hws hne (infix_collapseRuns_of hws hne h)
    have h3 := List.IsInfix.filter keepB h2
    rw [List.filter_eq_self.mpr hkeep] at h3
    exact infix_stripWsL_of hws hne (infix_collapseRuns_of hdl hne h3)

theorem keyword_clean_line {w : String} (hw : w ∈ ignore_words) {l : String}
    (h : containsSub w.data (l.data.map Char.toLower) = true) :
    containsSub w.data ((clean_line l).data.map Char.toLower) = true := by
  obtain ⟨hne, hal⟩ := ignore_word_chars hw
  rw [containsSub_eq_true_iff] at h ⊢
  obtain ⟨w', hw', hmap⟩ := map_infix_decomp h
  have hal' : ∀ c ∈ w', c.isAlpha = true := by
    intro c hc
    refine isAlpha_of_toLower (hal c.toLower ?_)
    rw [← hmap]
    exact List.mem_map_of_mem _ hc
  have hne' : w' ≠ [] := by
    intro h0
    apply hne
    rw [← hmap, h0]
    rfl
  have h2 := infix_clean_line_of_alpha hal' hne' hw'
  rw [← hmap]
  exact List.IsInfix.map Char.toLower h2

theorem keyword_should_ignore {l w : String} (hw : w ∈ ignore_words)
    (h : containsSub w.data (l.data.map Char.toLower) = true) :
    should_ignore_line l = true := by
  simp only [should_ignore_line]
  split
  · rfl
  · split
    · rfl
    · split
      · rfl
      · rename_i h3
        have hany : (ignore_words.any
            fun w => containsSub w.data (List.map Char.toLower l.data)) = true :=
          List.any_eq_true.mpr ⟨w, hw, h⟩
        exact absurd hany (by simp [h3])

theorem keyword_parse_line_none {l w : String} {n : Nat} (hw : w ∈ ignore_words)
    (h : containsSub w.data (l.data.map Char.toLower) = true) :
    parse_line l n = .ok none := by
  unfold parse_line
  rw [if_pos (keyword_should_ignore hw (keyword_clean_line hw h))]

theorem parse_line_raw_text {line : String} {n : Nat} {pl : ParsedLine}
    (h : parse_line line n = .ok (some pl)) : pl.raw_text = line := by
  unfold parse_line at h
  split at h
  · simp at h
  · obtain ⟨ps₁, p, ps₂, -, -, hacc⟩ := patLoop_first_success _ _ _ _ _ h
    obtain ⟨g1, g2, a, -, -, -, rfl⟩ := hacc
    rfl

/-- C2: `RegexReceiptParser.parse_receipt_text` returns normally on every
string input, producing exactly the items contributed line by line (so a
failing line is skipped and never aborts the parse), and the empty string
yields the empty list. -/
theorem C2_parse_receipt_text_total :
    (∀ text : String, parse_receipt_text text = .ok (receiptItemsOf text)) ∧
    parse_receipt_text "" = .ok [] :=
  ⟨parse_receipt_text_eq, by rw [parse_receipt_text_eq ""]; rfl⟩

/-- C5: a line containing a configured ignore word as a case-insensitive
substring is recognized by `should_ignore_line`, and no `ReceiptItem`
produced by `parse_receipt_text` comes from such a line: every produced
item has a `raw_text` free of ignore words, because line cleaning preserves
alphabetic substrings and `_parse_line` drops ignored lines. -/
theorem C5_ignore_word_lines :
    (∀ line : String,
        (∃ w ∈ ignore_words, containsSub w.data (line.data.map Char.toLower) = true) →
        should_ignore_line line = true) ∧
    (∀ (text : String) (items : List ReceiptItem),
        parse_receipt_text text = .ok items →
        ∀ item ∈ items, ∀ w ∈ ignore_words,
          containsSub w.data (item.raw_text.data.map Char.toLower) = false) := by
  constructor
  · rintro line ⟨w, hw, h⟩
    exact keyword_should_ignore hw h
  · intro text items h item hitem w hw
    rw [parse_receipt_text_eq] at h
    injection h with h'
    subst h'
    unfold receiptItemsOf at hitem
    obtain ⟨q, hq, hline⟩ := List.mem_filterMap.mp hitem
    by_contra hcon
    have hcon' : containsSub w.data (item.raw_text.data.map Char.toLower) = true := by
      simpa using hcon
    rcases hpl : parse_line (⟨q.2⟩ : String) q.1 with e | o
    · simp only [lineItemOf, hpl] at hline
      exact Option.noConfusion hline
    · cases o with
      | none =>
        simp only [lineItemOf, hpl] at hline
        exact Option.noConfusion hline
      | some pl =>
        have hraw : pl.raw_text = (⟨q.2⟩ : String) := parse_line_raw_text hpl
        have hitemraw : item.raw_text = pl.raw_text := by
          simp only [lineItemOf, hpl] at hline
          rcases ha : pl.amount with _ | a
          · simp only [ha] at hline
            exact Option.noConfusion hline
          · simp only [ha] at hline
            unfold mkReceiptItem at hline
            split at hline
            · simp [Except.toOption] at hline
            · simp only [Except.toOption] at hline
              injection hline with h2
              subst h2
              rfl
        rw [hitemraw, hraw] at hcon'
        have hnone := keyword_parse_line_none (n := q.1) hw hcon'
        rw [hpl] at hnone
        simp at hnone

theorem C5_witness :
    should_ignore_line "Sales Tax 2.00" = true ∧
    containsSub "tax".data
      ((⟨"Coffee", mkRat 7 2, "", 1, mkRat 4 5, "Coffee 3.50"⟩ :
        ReceiptItem).raw_text.data.map Char.toLower) = false :=
  ⟨C5_ignore_word_lines.1 "Sales Tax 2.00" ⟨"tax", by decide, by decide⟩,
   C5_ignore_word_lines.2 "Coffee 3.50\nSales Tax 2.00"
     [⟨"Coffee", mkRat 7 2, "", 1, mkRat 4 5, "Coffee 3.50"⟩] (by decide)
     ⟨"Coffee", mkRat 7 2, "", 1, mkRat 4 5, "Coffee 3.50"⟩ (by decide)
     "tax" (by decide)⟩

/-- C1: `_parse_line` tries the patterns in descending-confidence order with
library-order tie-breaking (the sorted list is pairwise descending and a
permutation of the library list), and a successful parse comes from the first
pattern of that list whose match survives vendor cleaning and amount
validation: every earlier pattern is rejected (no regex match, empty cleaned
vendor, or amount validation failure), and the result carries the winning
pattern confidence and name. -/
theorem C1_pattern_precedence :
    List.Pairwise (fun a b : ParsingPattern => b.confidence ≤ a.confidence) sorted_patterns ∧
    sorted_patterns.Perm default_patterns ∧
    ∀ (line : String) (n : Nat) (pl : ParsedLine),
      parse_line line n = .ok (some pl) →
      ∃ ps₁ p ps₂, sorted_patterns = ps₁ ++ p :: ps₂ ∧
        (∀ q ∈ ps₁, patternRejects q (clean_line line)) ∧
        patternAccepts p (clean_line line) line n pl ∧
        pl.confidence = p.confidence ∧ pl.parse_method = p.name := by
  refine ⟨?_, ?_, ?_⟩
  · decide
  · exact List.Perm.refl _
  · intro line n pl h
    unfold parse_line at h
    split at h
    · exact absurd h (by simp)
    · obtain ⟨ps₁, p, ps₂, hps, hrej, hacc⟩ := patLoop_first_success _ _ _ _ _ h
      obtain ⟨g1, g2, a, hm, hv, hpa, hpl⟩ := hacc
      subst hpl
      exact ⟨ps₁, p, ps₂, hps, hrej, ⟨g1, g2, a, hm, hv, hpa, rfl⟩, rfl, rfl⟩

theorem C1_witness :
    ∃ ps₁ p ps₂, sorted_patterns = ps₁ ++ p :: ps₂ ∧
      (∀ q ∈ ps₁, patternRejects q (clean_line "Coffee 3.50")) ∧
      patternAccepts p (clean_line "Coffee 3.50") "Coffee 3.50" 1
        ⟨1, "Coffee 3.50", "Coffee", some (mkRat 7 2), mkRat 4 5, "decimal_amount"⟩ ∧
      (⟨1, "Coffee 3.50", "Coffee", some (mkRat 7 2), mkRat 4 5,
          "decimal_amount"⟩ : ParsedLine).confidence = p.confidence ∧
      (⟨1, "Coffee 3.50", "Coffee", some (mkRat 7 2), mkRat 4 5,
          "decimal_amount"⟩ : ParsedLine).parse_method = p.name :=
  C1_pattern_precedence.2.2 "Coffee 3.50" 1 _ (by decide)


theorem validAmounts_pos {l : List Char} {a : ℚ} {rest : List ℚ}
    (h : validAmounts l = a :: rest) : mkRat 1 2 ≤ a := by
  have hmem : a ∈ validAmounts l := by rw [h]; exact List.mem_cons_self _ _
  unfold validAmounts at hmem
  have h2 := (List.mem_filter.mp hmem).2
  simp only [Bool.and_eq_true, decide_eq_true_eq] at h2
  exact h2.1

theorem mkReceiptItem_smart {vendor : String} {a : ℚ} (ha : mkRat 1 2 ≤ a)
    (cat : String) (n : Nat) (conf : ℚ) (raw : String) :
    mkReceiptItem vendor a cat n conf raw =
      .ok ⟨pyStrip vendor, a, pyStrip cat, n, conf, raw⟩ := by
  unfold mkReceiptItem
  rw [if_neg (not_lt.mpr ((show (0 : ℚ) ≤ mkRat 1 2 by decide).trans ha))]

theorem smartInv_nil (seen : List (List Char)) : smartInv seen [] [] := by
  refine ⟨List.nodup_nil, ?_, ?_⟩
  · intro p hp
    cases hp
  · intro k hk
    constructor
    · constructor
      · rintro ⟨l, hl, -⟩
        cases hl
      · rintro ⟨it, hit⟩
        cases hit
    · intro it hit
      cases hit

theorem smartInv_skip {seen ls pairs} {l : List Char}
    (hcond : ∀ k : List Char, k ∉ seen → lineKey l ≠ some k)
    (h : smartInv seen ls pairs) : smartInv seen (l :: ls) pairs := by
  obtain ⟨hnd, hns, hmain⟩ := h
  refine ⟨hnd, hns, fun k hk => ?_⟩
  obtain ⟨hiff, hfw⟩ := hmain k hk
  constructor
  · constructor
    · rintro ⟨l', hl', hkey'⟩
      rcases List.mem_cons.mp hl' with rfl | hl2
      · exact absurd hkey' (hcond k hk)
      · exact hiff.mp ⟨l', hl2, hkey'⟩
    · intro hex
      obtain ⟨l', hl2, hkey'⟩ := hiff.mpr hex
      exact ⟨l', List.mem_cons_of_mem _ hl2, hkey'⟩
  · intro it hit
    obtain ⟨pre, l', post, hsplit, hkey', hpre, hitem⟩ := hfw it hit
    refine ⟨l :: pre, l', post, by rw [hsplit]; rfl, hkey', ?_, hitem⟩
    intro l'' hl''
    rcases List.mem_cons.mp hl'' with rfl | h2
    · exact hcond k hk
    · exact hpre l'' h2

theorem smartInv_cons {seen ls pairs} {l k₀ : List Char}
    (hkey : lineKey l = some k₀) (hk₀ : k₀ ∉ seen)
    (h : smartInv (k₀ :: seen) ls pairs) :
    smartInv seen (l :: ls) ((k₀, smartItem l) :: pairs) := by
  obtain ⟨hnd, hns, hmain⟩ := h
  have hne : ∀ p ∈ pairs, p.1 ≠ k₀ := by
    intro p hp h0
    exact (hns p hp) (h0 ▸ List.mem_cons_self _ _)
  refine ⟨?_, ?_, ?_⟩
  · rw [List.map_cons]
    refine List.nodup_cons.mpr ⟨?_, hnd⟩
    intro hmem
    obtain ⟨p, hp, hp1⟩ := List.mem_map.mp hmem
    exact (hne p hp) hp1
  · intro p hp
    rcases List.mem_cons.mp hp with rfl | hp2
    · exact hk₀
    · exact fun hmem => (hns p hp2) (List.mem_cons_of_mem _ hmem)
  · intro k hk
    constructor
    · constructor
      · rintro ⟨l', hl', hkey'⟩
        by_cases hkk : k = k₀
        · subst hkk
          exact ⟨smartItem l, List.mem_cons_self _ _⟩
        · have hk' : k ∉ k₀ :: seen := by
            intro hmem
            rcases List.mem_cons.mp hmem with h0 | h0
            · exact hkk h0
            · exact hk h0
          rcases List.mem_cons.mp hl' with rfl | hl2
          · rw [hkey] at hkey'
            injection hkey' with h0
            exact absurd h0.symm hkk
          · obtain ⟨it, hit⟩ := (hmain k hk').1.mp ⟨l', hl2, hkey'⟩
            exact ⟨it, List.mem_cons_of_mem _ hit⟩
      · rintro ⟨it, hit⟩
        rcases List.mem_cons.mp hit with heq | hit2
        · have hk1 : k = k₀ := congrArg Prod.fst heq
          subst hk1
          exact ⟨l, List.mem_cons_self _ _, hkey⟩
        · have hk' : k ∉ k₀ :: seen := by
            intro hmem
            rcases List.mem_cons.mp hmem with h0 | h0
            · exact (hne (k, it) hit2) h0
            · exact hk h0
          obtain ⟨l', hl2, hkey'⟩ := (hmain k hk').1.mpr ⟨it, hit2⟩
          exact ⟨l', List.mem_cons_of_mem _ hl2, hkey'⟩
    · intro it hit
      rcases List.mem_cons.mp hit with heq | hit2
      · have hk1 : k = k₀ := congrArg Prod.fst heq
        have hit1 : it = smartItem l := congrArg Prod.snd heq
        subst hk1
        refine ⟨[], l, ls, rfl, hkey, ?_, hit1⟩
        intro l'' h''
        cases h''
      · have hk' : k ∉ k₀ :: seen := by
          intro hmem
          rcases List.mem_cons.mp hmem with h0 | h0
          · exact (hne (k, it) hit2) h0
          · exact hk h0
        have hkk : k ≠ k₀ := fun h0 => hk' (by rw [h0]; exact List.mem_cons_self _ _)
        obtain ⟨pre, l', post, hsplit, hkey', hpre, hitem⟩ := (hmain k hk').2 it hit2
        refine ⟨l :: pre, l', post, by rw [hsplit]; rfl, hkey', ?_, hitem⟩
        intro l'' hl''
        rcases List.mem_cons.mp hl'' with rfl | h2
        · rw [hkey]
          intro h0
          injection h0 with h0
          exact hkk h0.symm
        · exact hpre l'' h2

theorem smartLoop_spec : ∀ (ls : List (List Char)) (seen : List (List Char)),
    ∃ pairs : List (List Char × ReceiptItem),
      smartLoop seen ls = .ok (pairs.map Prod.snd) ∧ smartInv seen ls pairs := by
  intro ls
  induction ls with
  | nil =>
    intro seen
    exact ⟨[], rfl, smartInv_nil seen⟩
  | cons l ls ih =>
    intro seen
    by_cases h1 : stripWsL l = [] ∨ (stripWsL l).length < 5
    · obtain ⟨pairs, hloop, hinv⟩ := ih seen
      have hkey : lineKey l = none := by
        unfold lineKey
        rw [if_pos h1]
      have hstep : smartLoop seen (l :: ls) = smartLoop seen ls := by
        show (if stripWsL l = [] ∨ (stripWsL l).length < 5 then smartLoop seen ls
          else _) = _
        rw [if_pos h1]
      exact ⟨pairs, hstep.trans hloop, smartInv_skip (fun k _ => by simp [hkey]) hinv⟩
    · by_cases h2 : lineAmounts (stripWsL l) = []
      · obtain ⟨pairs, hloop, hinv⟩ := ih seen
        have hkey : lineKey l = none := by
          unfold lineKey
          rw [if_neg h1, if_pos h2]
        have hstep : smartLoop seen (l :: ls) = smartLoop seen ls := by
          show (if stripWsL l = [] ∨ (stripWsL l).length < 5 then smartLoop seen ls
            else if lineAmounts (stripWsL l) = [] then smartLoop seen ls
            else _) = _
          rw [if_neg h1, if_pos h2]
        exact ⟨pairs, hstep.trans hloop, smartInv_skip (fun k _ => by simp [hkey]) hinv⟩
      · by_cases h3 : (exclude_keywords.any
            (fun w => containsSub w.data ((stripWsL l).map Char.toLower))) = true
        · obtain ⟨pairs, hloop, hinv⟩ := ih seen
          have hkey : lineKey l = none := by
            unfold lineKey
            rw [if_neg h1, if_neg h2, if_pos h3]
          have hstep : smartLoop seen (l :: ls) = smartLoop seen ls := by
            show (if stripWsL l = [] ∨ (stripWsL l).length < 5 then smartLoop seen ls
              else if lineAmounts (stripWsL l) = [] then smartLoop seen ls
              else if exclude_keywords.any
                  (fun w => containsSub w.data ((stripWsL l).map Char.toLower)) then
                smartLoop seen ls
              else _) = _
            rw [if_neg h1, if_neg h2, if_pos h3]
          exact ⟨pairs, hstep.trans hloop, smartInv_skip (fun k _ => by simp [hkey]) hinv⟩
        · rcases hva : validAmounts (stripWsL l) with _ | ⟨a, arest⟩
          · obtain ⟨pairs, hloop, hinv⟩ := ih seen
            have hkey : lineKey l = none := by
              unfold lineKey
              rw [if_neg h1, if_neg h2, if_neg h3, hva]
            have hstep : smartLoop seen (l :: ls) = smartLoop seen ls := by
              show (if stripWsL l = [] ∨ (stripWsL l).length < 5 then smartLoop seen ls
                else if lineAmounts (stripWsL l) = [] then smartLoop seen ls
                else if exclude_keywords.any
                    (fun w => containsSub w.data ((stripWsL l).map Char.toLower)) then
                  smartLoop seen ls
                else _) = _
              rw [if_neg h1, if_neg h2, if_neg h3, hva]
            exact ⟨pairs, hstep.trans hloop,
              smartInv_skip (fun k _ => by simp [hkey]) hinv⟩
          · by_cases h5 : (vendorPart (stripWsL l)).length < 3
            · obtain ⟨pairs, hloop, hinv⟩ := ih seen
              have hkey : lineKey l = none := by
                unfold lineKey
                rw [if_neg h1, if_neg h2, if_neg h3, hva]
                show (if (vendorPart (stripWsL l)).length < 3 then none
                  else some (((vendorPart (stripWsL l)).map Char.toLower).take 20)) = none
                rw [if_pos h5]
              have hstep : smartLoop seen (l :: ls) = smartLoop seen ls := by
                show (if stripWsL l = [] ∨ (stripWsL l).length < 5 then smartLoop seen ls
                  else if lineAmounts (stripWsL l) = [] then smartLoop seen ls
                  else if exclude_keywords.any
                      (fun w => containsSub w.data ((stripWsL l).map Char.toLower)) then
                    smartLoop seen ls
                  else _) = _
                rw [if_neg h1, if_neg h2, if_neg h3, hva]
                show (if (vendorPart (stripWsL l)).length < 3 then smartLoop seen ls
                  else _) = _
                rw [if_pos h5]
              exact ⟨pairs, hstep.trans hloop,
                smartInv_skip (fun k _ => by simp [hkey]) hinv⟩
            · have hkey : lineKey l =
                  some (((vendorPart (stripWsL l)).map Char.toLower).take 20) := by
                unfold lineKey
                rw [if_neg h1, if_neg h2, if_neg h3, hva]
                show (if (vendorPart (stripWsL l)).length < 3 then none
                  else some (((vendorPart (stripWsL l)).map Char.toLower).take 20)) = _
                rw [if_neg h5]
              by_cases h6 : ((vendorPart (stripWsL l)).map Char.toLower).take 20 ∈ seen
              · obtain ⟨pairs, hloop, hinv⟩ := ih seen
                have hstep : smartLoop seen (l :: ls) = smartLoop seen ls := by
                  show (if stripWsL l = [] ∨ (stripWsL l).length < 5 then smartLoop seen ls
                    else if lineAmounts (stripWsL l) = [] then smartLoop seen ls
                    else if exclude_keywords.any
                        (fun w => containsSub w.data ((stripWsL l).map Char.toLower)) then
                      smartLoop seen ls
                    else _) = _
                  rw [if_neg h1, if_neg h2, if_neg h3, hva]
                  show (if (vendorPart (stripWsL l)).length < 3 then smartLoop seen ls
                    else if ((vendorPart (stripWsL l)).map Char.toLower).take 20 ∈ seen then
                      smartLoop seen ls
                    else _) = _
                  rw [if_neg h5, if_pos h6]
                have hcond : ∀ k : List Char, k ∉ seen → lineKey l ≠ some k := by
                  intro k hk h0
                  rw [hkey] at h0
                  injection h0 with h0
                  exact hk (h0 ▸ h6)
                exact ⟨pairs, hstep.trans hloop, smartInv_skip hcond hinv⟩
              · obtain ⟨pairs, hloop, hinv⟩ :=
                  ih ((((vendorPart (stripWsL l)).map Char.toLower).take 20) :: seen)
                have hhalf : mkRat 1 2 ≤ a := validAmounts_pos hva
                have hitem : (⟨pyStrip ⟨(vendorPart (stripWsL l)).take 50⟩, a, pyStrip "",
                    0, 1, ⟨stripWsL l⟩⟩ : ReceiptItem) = smartItem l := by
                  unfold smartItem
                  rw [hva, List.headD_cons]
                have hstep : smartLoop seen (l :: ls) =
                    .ok (smartItem l :: pairs.map Prod.snd) := by
                  show (if stripWsL l = [] ∨ (stripWsL l).length < 5 then smartLoop seen ls
                    else if lineAmounts (stripWsL l) = [] then smartLoop seen ls
                    else if exclude_keywords.any
                        (fun w => containsSub w.data ((stripWsL l).map Char.toLower)) then
                      smartLoop seen ls
                    else _) = _
                  rw [if_neg h1, if_neg h2, if_neg h3, hva]
                  show (if (vendorPart (stripWsL l)).length < 3 then smartLoop seen ls
                    else if ((vendorPart (stripWsL l)).map Char.toLower).take 20 ∈ seen then
                      smartLoop seen ls
                    else _) = _
                  rw [if_neg h5, if_neg h6,
                    mkReceiptItem_smart hhalf "" 0 1 (⟨stripWsL l⟩ : String)]
                  show (match smartLoop
                      ((((vendorPart (stripWsL l)).map Char.toLower).take 20) :: seen) ls with
                    | Except.error e => (Except.error e : Except PyErr (List ReceiptItem))
                    | Except.ok items =>
                      Except.ok ((⟨pyStrip ⟨(vendorPart (stripWsL l)).take 50⟩, a, pyStrip "",
                        0, 1, ⟨stripWsL l⟩⟩ : ReceiptItem) :: items)) = _
                  rw [hloop, hitem]
                refine ⟨(((vendorPart (stripWsL l)).map Char.toLower).take 20,
                    smartItem l) :: pairs, ?_, smartInv_cons hkey h6 hinv⟩
                rw [hstep]
                rfl

/-- C8: `smart_parse_receipt` deduplicates by the first 20 characters of the
lowercased extracted vendor part: the items it returns pair up with pairwise
distinct vendor keys, a key is represented exactly when some line passes all
the pre-dedup filters with that key (`lineKey`), and the item carrying a key
is built (`smartItem`) from the first line claiming that key - later lines
with the same key contribute nothing, whatever their amounts. -/
theorem C8_dedup_first_wins :
    ∀ (text : String) (items : List ReceiptItem),
      smart_parse_receipt text = .ok items →
      ∃ pairs : List (List Char × ReceiptItem),
        items = pairs.map Prod.snd ∧
        (pairs.map Prod.fst).Nodup ∧
        ∀ k : List Char,
          ((∃ l ∈ splitOnNl text.data, lineKey l = some k) ↔ ∃ it, (k, it) ∈ pairs) ∧
          (∀ it, (k, it) ∈ pairs →
            ∃ pre l post, splitOnNl text.data = pre ++ l :: post ∧
              lineKey l = some k ∧ (∀ l' ∈ pre, lineKey l' ≠ some k) ∧
              it = smartItem l) := by
  intro text items h
  obtain ⟨pairs, hloop, hinv⟩ := smartLoop_spec (splitOnNl text.data) []
  unfold smart_parse_receipt at h
  rw [hloop] at h
  injection h with h'
  obtain ⟨hnd, -, hmain⟩ := hinv
  exact ⟨pairs, h'.symm, hnd, fun k => hmain k (List.not_mem_nil k)⟩

theorem C8_witness :
    ∃ pairs : List (List Char × ReceiptItem),
      [(⟨"Mosslanda Picture Ledge White", mkRat 999 100, "", 0, 1,
        "Mosslanda Picture Ledge White 9.99"⟩ : ReceiptItem)] = pairs.map Prod.snd ∧
      (pairs.map Prod.fst).Nodup ∧
      ∀ k : List Char,
        ((∃ l ∈ splitOnNl ("Mosslanda Picture Ledge White 9.99" ++ "\n" ++
            "Mosslanda Picture Ledge Black 12.99" : String).data, lineKey l = some k) ↔
          ∃ it, (k, it) ∈ pairs) ∧
        (∀ it, (k, it) ∈ pairs →
          ∃ pre l post, splitOnNl ("Mosslanda Picture Ledge White 9.99" ++ "\n" ++
              "Mosslanda Picture Ledge Black 12.99" : String).data = pre ++ l :: post ∧
            lineKey l = some k ∧ (∀ l' ∈ pre, lineKey l' ≠ some k) ∧
            it = smartItem l) :=
  C8_dedup_first_wins ("Mosslanda Picture Ledge White 9.99" ++ "\n" ++
      "Mosslanda Picture Ledge Black 12.99")
    [(⟨"Mosslanda Picture Ledge White", mkRat 999 100, "", 0, 1,
      "Mosslanda Picture Ledge White 9.99"⟩ : ReceiptItem)] (by decide)


/-! ## Claim C10: bare 3/4-digit `$N` amounts get implied cents -/

theorem takeWhile_eq_self_of_all {p : Char → Bool} {l : List Char}
    (h : ∀ c ∈ l, p c = true) : l.takeWhile p = l := by
  induction l with
  | nil => rfl
  | cons c cs ih =>
    rw [List.takeWhile_cons, if_pos (h c (by simp)), ih (fun x hx => h x (by simp [hx]))]

theorem dropWhile_eq_nil_of_all {p : Char → Bool} {l : List Char}
    (h : ∀ c ∈ l, p c = true) : l.dropWhile p = [] := by
  induction l with
  | nil => rfl
  | cons c cs ih =>
    rw [List.dropWhile_cons, if_pos (h c (by simp))]
    exact ih (fun x hx => h x (by simp [hx]))

theorem takeWhile_append_head_false {p : Char → Bool} {l₁ : List Char} {c : Char}
    {l₂ : List Char} (h : ∀ x ∈ l₁, p x = true) (hc : p c = false) :
    (l₁ ++ c :: l₂).takeWhile p = l₁ := by
  induction l₁ with
  | nil =>
    rw [List.nil_append, List.takeWhile_cons, if_neg (by simp [hc])]
  | cons a as ih =>
    rw [List.cons_append, List.takeWhile_cons, if_pos (h a (by simp)),
      ih (fun x hx => h x (by simp [hx]))]

theorem dropWhile_append_head_false {p : Char → Bool} {l₁ : List Char} {c : Char}
    {l₂ : List Char} (h : ∀ x ∈ l₁, p x = true) (hc : p c = false) :
    (l₁ ++ c :: l₂).dropWhile p = c :: l₂ := by
  induction l₁ with
  | nil =>
    rw [List.nil_append, List.dropWhile_cons, if_neg (by simp [hc])]
  | cons a as ih =>
    rw [List.cons_append, List.dropWhile_cons, if_pos (h a (by simp))]
    exact ih (fun x hx => h x (by simp [hx]))

theorem digit_toNat_bounds {c : Char} (h : isDigitB c = true) :
    48 ≤ c.toNat ∧ c.toNat ≤ 57 := by
  simp only [isDigitB, Char.isDigit, Bool.and_eq_true, decide_eq_true_eq] at h
  obtain ⟨h1, h2⟩ := h
  have h1' : 48 ≤ c.val.toNat := h1
  have h2' : c.val.toNat ≤ 57 := h2
  have he : c.toNat = c.val.toNat := rfl
  omega

theorem natOfDigits_foldl_lt :
    ∀ (l : List Char) (a : Nat), (∀ c ∈ l, isDigitB c = true) →
      l.foldl (fun a c => 10 * a + (c.toNat - 48)) a < (a + 1) * 10 ^ l.length := by
  intro l
  induction l with
  | nil =>
    intro a _
    simp
  | cons c cs ih =>
    intro a h
    have hd := digit_toNat_bounds (h c (by simp))
    have h2 := ih (10 * a + (c.toNat - 48)) (fun x hx => h x (by simp [hx]))
    have h3 : (10 * a + (c.toNat - 48) + 1) * 10 ^ cs.length ≤
        (a + 1) * 10 ^ (cs.length + 1) := by
      rw [pow_succ]
      calc (10 * a + (c.toNat - 48) + 1) * 10 ^ cs.length
          ≤ ((a + 1) * 10) * 10 ^ cs.length :=
            Nat.mul_le_mul_right _ (by omega)
        _ = (a + 1) * (10 ^ cs.length * 10) := by ring
    rw [List.foldl_cons, List.length_cons]
    exact lt_of_lt_of_le h2 h3

theorem natOfDigits_lt {l : List Char} (h : ∀ c ∈ l, isDigitB c = true) :
    natOfDigits l < 10 ^ l.length := by
  have := natOfDigits_foldl_lt l 0 h
  simpa [natOfDigits] using this

theorem underscoresOkAux_no_us :
    ∀ (l : List Char) (prev : Char), '_' ∉ l →
      underscoresOk.underscoresOkAux prev l = true := by
  intro l
  induction l with
  | nil => intro prev _; rfl
  | cons c cs ih =>
    intro prev h
    rw [underscoresOk.underscoresOkAux.eq_def]
    split
    · rfl
    · rename_i heq
      injection heq with h1 h2
      exact absurd (h1 ▸ List.mem_cons_self c cs : '_' ∈ c :: cs) h
    · rename_i c' cs' hne heq
      injection heq with h1 h2
      subst h1
      subst h2
      exact ih c (fun hm => h (List.mem_cons_of_mem _ hm))

theorem underscoresOk_no_us {l : List Char} (h : '_' ∉ l) : underscoresOk l = true := by
  cases l with
  | nil => rfl
  | cons c cs =>
    rw [underscoresOk.eq_def]
    split
    · rfl
    · rename_i heq
      injection heq with h1 h2
      exact absurd (h1 ▸ List.mem_cons_self c cs : '_' ∈ c :: cs) h
    · rename_i c' cs' hne heq
      injection heq with h1 h2
      subst h1
      subst h2
      exact underscoresOkAux_no_us cs c (fun hm => h (List.mem_cons_of_mem _ hm))

theorem decValue_two_zero (m : Nat) : decValue m 2 0 = mkRat m 100 := by
  unfold decValue
  rw [if_pos le_rfl]
  norm_num

theorem ciEq_false_of_head {d₀ : Char} {rest : List Char} {p₀ : Char} {ps : List Char}
    (h : d₀.toLower ≠ p₀) : ciEq (d₀ :: rest) (p₀ :: ps) = false := by
  unfold ciEq
  apply decide_eq_false
  intro heq
  rw [List.map_cons] at heq
  injection heq with h1 h2
  exact h h1

theorem parseFiniteBody_dot {I F : List Char} (hI : I ≠ [])
    (hIdig : ∀ c ∈ I, isDigitB c = true) (hFdig : ∀ c ∈ F, isDigitB c = true) :
    parseFiniteBody (I ++ '.' :: F) =
      some (decValue (natOfDigits (I ++ F)) F.length 0) := by
  have hPall : ∀ c ∈ I ++ '.' :: F, (c ≠ 'e' && c ≠ 'E') = true := by
    intro c hc
    rcases List.mem_append.mp hc with hc1 | hc1
    · have hd := hIdig c hc1
      simp only [Bool.and_eq_true, decide_eq_true_eq]
      constructor
      · intro h0; subst h0; exact absurd hd (by decide)
      · intro h0; subst h0; exact absurd hd (by decide)
    · rcases List.mem_cons.mp hc1 with rfl | hc2
      · decide
      · have hd := hFdig c hc2
        simp only [Bool.and_eq_true, decide_eq_true_eq]
        constructor
        · intro h0; subst h0; exact absurd hd (by decide)
        · intro h0; subst h0; exact absurd hd (by decide)
  have h1 : (I ++ '.' :: F).takeWhile (fun c => c ≠ 'e' && c ≠ 'E') = I ++ '.' :: F :=
    takeWhile_eq_self_of_all hPall
  have h2 : (I ++ '.' :: F).dropWhile (fun c => c ≠ 'e' && c ≠ 'E') = [] :=
    dropWhile_eq_nil_of_all hPall
  have h3 : (I ++ '.' :: F).takeWhile isDigitB = I :=
    takeWhile_append_head_false hIdig (by decide)
  have h4 : (I ++ '.' :: F).dropWhile isDigitB = '.' :: F :=
    dropWhile_append_head_false hIdig (by decide)
  have hcond : (F.all isDigitB && (I ≠ [] || F ≠ [])) = true := by
    have hFall : F.all isDigitB = true := List.all_eq_true.mpr hFdig
    simp [hFall, hI]
  simp only [parseFiniteBody]
  rw [h1, h2, h3, h4]
  show (if F.all isDigitB && (I ≠ [] || F ≠ []) then
      some (decValue (natOfDigits (I ++ F)) F.length 0) else none) =
    some (decValue (natOfDigits (I ++ F)) F.length 0)
  rw [if_pos hcond]

theorem decBody_digits_dot {I F : List Char} (hI : I ≠ [])
    (hIdig : ∀ c ∈ I, isDigitB c = true) (hFdig : ∀ c ∈ F, isDigitB c = true) :
    decBody false (I ++ '.' :: F) =
      some (PyDec.fin (decValue (natOfDigits (I ++ F)) F.length 0)) := by
  have hchars : ∀ c ∈ I ++ '.' :: F, isDigitB c = true ∨ c = '.' := by
    intro c hc
    rcases List.mem_append.mp hc with hc1 | hc1
    · exact Or.inl (hIdig c hc1)
    · rcases List.mem_cons.mp hc1 with rfl | hc2
      · exact Or.inr rfl
      · exact Or.inl (hFdig c hc2)
  obtain ⟨d₀, I', rfl⟩ : ∃ d₀ I', I = d₀ :: I' := by
    cases I with
    | nil => exact absurd rfl hI
    | cons a b => exact ⟨a, b, rfl⟩
  have hd₀ : isDigitB d₀ = true := hIdig d₀ (by simp)
  have hci1 : ciEq ((d₀ :: I') ++ '.' :: F) ['i', 'n', 'f'] = false := by
    rw [List.cons_append]
    refine ciEq_false_of_head ?_
    rw [toLower_of_digit hd₀]
    intro h0
    subst h0
    exact absurd hd₀ (by decide)
  have hci2 : ciEq ((d₀ :: I') ++ '.' :: F)
      ['i', 'n', 'f', 'i', 'n', 'i', 't', 'y'] = false := by
    rw [List.cons_append]
    refine ciEq_false_of_head ?_
    rw [toLower_of_digit hd₀]
    intro h0
    subst h0
    exact absurd hd₀ (by decide)
  have hn1 : nanTail ((d₀ :: I') ++ '.' :: F) ['n', 'a', 'n'] = false :=
    nanTail_false hchars (by decide)
  have hn2 : nanTail ((d₀ :: I') ++ '.' :: F) ['s', 'n', 'a', 'n'] = false :=
    nanTail_false hchars (by decide)
  unfold decBody
  rw [if_neg (by rw [hci1, hci2]; decide), if_neg (by rw [hn1, hn2]; decide),
    parseFiniteBody_dot hI hIdig hFdig]
  rfl

theorem decOfString_digits_dot {I F : List Char} (hI : I ≠ [])
    (hIdig : ∀ c ∈ I, isDigitB c = true) (hFdig : ∀ c ∈ F, isDigitB c = true) :
    decOfString? ⟨I ++ '.' :: F⟩ =
      some (PyDec.fin (decValue (natOfDigits (I ++ F)) F.length 0)) := by
  have hchars : ∀ c ∈ I ++ '.' :: F, isDigitB c = true ∨ c = '.' := by
    intro c hc
    rcases List.mem_append.mp hc with hc1 | hc1
    · exact Or.inl (hIdig c hc1)
    · rcases List.mem_cons.mp hc1 with rfl | hc2
      · exact Or.inr rfl
      · exact Or.inl (hFdig c hc2)
  have hws : ∀ c ∈ I ++ '.' :: F, wsB c = false := by
    intro c hc
    rcases hchars c hc with h | rfl
    · exact not_ws_of_digit h
    · decide
  have hno_us : '_' ∉ I ++ '.' :: F := by
    intro hm
    rcases hchars _ hm with h | h
    · exact absurd h (by decide)
    · cases h
  have hstrip : stripWsL (I ++ '.' :: F) = I ++ '.' :: F := stripWsL_eq_self hws
  have hfil : (I ++ '.' :: F).filter (fun c => c ≠ '_') = I ++ '.' :: F :=
    List.filter_eq_self.mpr (fun c hc => decide_eq_true (fun h0 => hno_us (h0 ▸ hc)))
  simp only [decOfString?, String.data]
  rw [hstrip, if_pos (underscoresOk_no_us hno_us), hfil]
  obtain ⟨d₀, I', rfl⟩ : ∃ d₀ I', I = d₀ :: I' := by
    cases I with
    | nil => exact absurd rfl hI
    | cons a b => exact ⟨a, b, rfl⟩
  have hd₀ : isDigitB d₀ = true := hIdig d₀ (by simp)
  rw [List.cons_append]
  split
  · rename_i heq
    cases heq
  · rename_i t heq
    injection heq with h1 h2
    subst h1
    exact absurd hd₀ (by decide)
  · rename_i t heq
    injection heq with h1 h2
    subst h1
    exact absurd hd₀ (by decide)
  · rename_i hne1 hne2 hne3
    rw [← List.cons_append]
    exact decBody_digits_dot hI hIdig hFdig

theorem clean_amount_digits34 {l : List Char} (hdig : ∀ c ∈ l, isDigitB c = true)
    (hlen : l.length = 3 ∨ l.length = 4) :
    clean_amount_string ⟨l⟩ = ⟨l.take (l.length - 2) ++ '.' :: l.drop (l.length - 2)⟩ := by
  have hd : ∀ x ∈ l, x ≠ '$' := by
    intro x hx h
    subst h
    exact absurd (hdig _ hx) (by decide)
  have hu : ∀ x ∈ l, x ≠ 'U' := by
    intro x hx h
    subst h
    exact absurd (hdig _ hx) (by decide)
  have hws : ∀ x ∈ l, wsB x = false := fun x hx => not_ws_of_digit (hdig x hx)
  have hcm : ∀ x ∈ l, x ≠ ',' := by
    intro x hx h
    subst h
    exact absurd (hdig _ hx) (by decide)
  have hstep : stripWsL (replaceUSD (replaceChar '$' [] l)) = l := by
    rw [replaceChar_eq_self hd, replaceUSD_eq_self hu, stripWsL_eq_self hws]
  have hnodot : '.' ∉ l := by
    intro hmem
    exact absurd (hdig _ hmem) (by decide)
  have halldig : (l.drop (l.length - 2)).all isDigitB := by
    rw [List.all_eq_true]
    intro x hx
    exact hdig x (List.mem_of_mem_drop hx)
  simp only [clean_amount_string, String.data]
  rw [hstep, replaceChar_eq_self hcm, if_pos]
  exact ⟨⟨hnodot, by omega⟩, ⟨halldig, by omega⟩⟩

theorem parse_amount_digits34 {N : List Char} (hdig : ∀ c ∈ N, isDigitB c = true)
    (hlen : N.length = 3 ∨ N.length = 4) (hpos : 1 ≤ natOfDigits N) :
    parse_amount ⟨N⟩ = .ok (mkRat (natOfDigits N) 100) := by
  have hne : (⟨N⟩ : String) ≠ "" := by
    intro h0
    have h1 : N = [] := congrArg String.data h0
    rw [h1] at hlen
    simp at hlen
  have hIne : N.take (N.length - 2) ≠ [] := by
    intro h0
    have := congrArg List.length h0
    rw [List.length_take] at this
    simp at this
    omega
  have hIdig : ∀ c ∈ N.take (N.length - 2), isDigitB c = true :=
    fun c hc => hdig c (List.mem_of_mem_take hc)
  have hFdig : ∀ c ∈ N.drop (N.length - 2), isDigitB c = true :=
    fun c hc => hdig c (List.mem_of_mem_drop hc)
  have hIF : N.take (N.length - 2) ++ N.drop (N.length - 2) = N := List.take_append_drop _ _
  have hFlen : (N.drop (N.length - 2)).length = 2 := by
    rw [List.length_drop]
    omega
  have hdec : decOfString? (clean_amount_string ⟨N⟩) =
      some (PyDec.fin (mkRat (natOfDigits N) 100)) := by
    rw [clean_amount_digits34 hdig hlen, decOfString_digits_dot hIne hIdig hFdig,
      hIF, hFlen, decValue_two_zero]
  have hv100 : natOfDigits N ≤ 9999 := by
    have h1 := natOfDigits_lt hdig
    have h2 : (10 : Nat) ^ N.length ≤ 10 ^ 4 := by
      refine Nat.pow_le_pow_right (by omega) ?_
      omega
    omega
  have hq1 : ((1 : ℚ) : ℚ) ≤ ((natOfDigits N : ℚ)) := by
    exact_mod_cast hpos
  have hq2 : ((natOfDigits N : ℚ)) ≤ 9999 := by
    exact_mod_cast hv100
  have hqval : (mkRat (natOfDigits N) 100 : ℚ) = (natOfDigits N : ℚ) / 100 := by
    rw [Rat.mkRat_eq_div]
    push_cast
    ring
  have hmin : ¬ (mkRat (natOfDigits N) 100 < min_amount) := by
    rw [not_lt, hqval]
    have : min_amount = (1 : ℚ) / 100 := by
      rw [show min_amount = mkRat 1 100 from rfl, Rat.mkRat_eq_div]
      norm_num
    rw [this]
    linarith
  have hmax : ¬ (mkRat (natOfDigits N) 100 > max_amount) := by
    rw [not_lt, hqval]
    have : max_amount = (10000 : ℚ) := by
      rw [show max_amount = (10000 : ℚ) from rfl]
    rw [this]
    linarith
  unfold parse_amount
  rw [if_neg hne, hdec]
  show (if mkRat (natOfDigits N) 100 < min_amount then
      (Except.error PyErr.validationError : Except PyErr ℚ)
    else if mkRat (natOfDigits N) 100 > max_amount then Except.error PyErr.validationError
    else Except.ok (mkRat (natOfDigits N) 100)) = Except.ok (mkRat (natOfDigits N) 100)
  rw [if_neg hmin, if_neg hmax]

theorem collapseRunsAux_chars {p : Char → Bool} {r : Char} :
    ∀ (b : Bool) (l : List Char), ∀ c ∈ collapseRunsAux p r b l, p c = false ∨ c = r := by
  intro b l
  induction l generalizing b with
  | nil =>
    intro c hc
    cases hc
  | cons c0 cs ih =>
    intro c hc
    by_cases hp : p c0 = true
    · cases b with
      | true =>
        have hstep : collapseRunsAux p r true (c0 :: cs) = collapseRunsAux p r true cs := by
          show (if p c0 then (if (true : Bool) then collapseRunsAux p r true cs
              else r :: collapseRunsAux p r true cs)
            else c0 :: collapseRunsAux p r false cs) = _
          rw [if_pos hp, if_pos rfl]
        rw [hstep] at hc
        exact ih true c hc
      | false =>
        have hstep : collapseRunsAux p r false (c0 :: cs) =
            r :: collapseRunsAux p r true cs := by
          show (if p c0 then (if (false : Bool) then collapseRunsAux p r true cs
              else r :: collapseRunsAux p r true cs)
            else c0 :: collapseRunsAux p r false cs) = _
          rw [if_pos hp, if_neg (by simp)]
        rw [hstep] at hc
        rcases List.mem_cons.mp hc with rfl | hc2
        · exact Or.inr rfl
        · exact ih true c hc2
    · have hstep : collapseRunsAux p r b (c0 :: cs) =
          c0 :: collapseRunsAux p r false cs := by
        show (if p c0 then (if b then collapseRunsAux p r true cs
            else r :: collapseRunsAux p r true cs)
          else c0 :: collapseRunsAux p r false cs) = _
        rw [if_neg hp]
      rw [hstep] at hc
      rcases List.mem_cons.mp hc with rfl | hc2
      · exact Or.inl (by simpa using hp)
      · exact ih false c hc2

theorem clean_line_ws_chars {s : String} :
    ∀ c ∈ (clean_line s).data, wsB c = false ∨ c = ' ' := by
  intro c hc
  unfold clean_line at hc
  split at hc
  · simp at hc
  · have hc1 := mem_stripWsL hc
    rcases mem_collapseRunsAux hc1 with hc2 | ⟨rfl, -⟩
    · have hc3 := List.mem_of_mem_filter hc2
      have hc4 := mem_stripWsL hc3
      exact collapseRunsAux_chars false s.data c hc4
    · exact Or.inl (by decide)

theorem clean_line_no_newline (s : String) :
    ∀ c ∈ (clean_line s).data, c ≠ '\n' := by
  intro c hc h0
  subst h0
  rcases clean_line_ws_chars _ hc with h1 | h1
  · exact absurd h1 (by decide)
  · cases h1

theorem lazySplit_fail_nodot {T : List Char → Option (List Char)}
    (hT : ∀ t g2, T t = some g2 →
      ∃ pre x y r, t = pre ++ '.' :: x :: y :: r ∧ r.all wsB)
    {l : List Char} (hno : '.' ∉ l) : lazySplit T l = none := by
  rcases h : lazySplit T l with _ | ⟨g1, g2⟩
  · rfl
  · exfalso
    obtain ⟨rest, hrest, hTr, -⟩ := lazySplit_sound h
    obtain ⟨pre, x, y, r, hre, -⟩ := hT rest g2 hTr
    refine hno ?_
    rw [hrest, hre]
    simp

theorem tailWholeDollar_at_amount {N : List Char}
    (hN : ∀ c ∈ N, isDigitB c = true) (hNne : N ≠ []) :
    tailWholeDollar (' ' :: '$' :: N) = some N := by
  have htw : (' ' :: '$' :: N).takeWhile wsB = [' '] := by
    rw [List.takeWhile_cons, if_pos (by decide), List.takeWhile_cons, if_neg (by decide)]
  have hdw : (' ' :: '$' :: N).dropWhile wsB = '$' :: N := by
    rw [List.dropWhile_cons, if_pos (by decide), List.dropWhile_cons, if_neg (by decide)]
  have htN : N.takeWhile isDigitB = N := takeWhile_eq_self_of_all hN
  have hdN : N.dropWhile isDigitB = [] := dropWhile_eq_nil_of_all hN
  unfold tailWholeDollar
  rw [htw, hdw]
  show (if ([' '] : List Char) = [] then none
    else if N.takeWhile isDigitB = [] then none
    else if (N.dropWhile isDigitB).all wsB then some (N.takeWhile isDigitB) else none) = some N
  rw [if_neg (by simp), htN, hdN, if_neg hNne, if_pos (by decide)]

theorem tailWholeDollar_mid_fail {u : List Char} {c₁ : Char} {rest₁ : List Char}
    (hdw : u.dropWhile wsB = c₁ :: rest₁) (hc₁ : c₁ ≠ '$') {v : List Char} :
    tailWholeDollar (u ++ v) = none := by
  unfold tailWholeDollar
  split
  · rfl
  · have hdwa : (u ++ v).dropWhile wsB = c₁ :: (rest₁ ++ v) := by
      rw [List.dropWhile_append, hdw]
      simp
    rw [hdwa]
    split
    · rename_i t2 heq
      injection heq with h1 h2
      exact absurd h1 hc₁
    · rfl

theorem wholeDollar_matches {cv0 : List Char} {clast : Char} {N : List Char}
    (hlast : wsB clast = false)
    (hcv : ∀ c ∈ cv0 ++ [clast], c ≠ '$')
    (hnl : ∀ c ∈ cv0 ++ [clast], c ≠ '\n')
    (hN : ∀ c ∈ N, isDigitB c = true) (hNne : N ≠ []) :
    lazySplit tailWholeDollar ((cv0 ++ [clast]) ++ ' ' :: '$' :: N) =
      some (cv0 ++ [clast], N) := by
  have hk1 : 1 ≤ (cv0 ++ [clast]).length := by
    rw [List.length_append]
    simp
  have hkle : (cv0 ++ [clast]).length ≤ ((cv0 ++ [clast]) ++ ' ' :: '$' :: N).length := by
    simp only [List.length_append, List.length_cons, List.length_nil]
    omega
  have htake : ∀ c ∈ ((cv0 ++ [clast]) ++ ' ' :: '$' :: N).take (cv0 ++ [clast]).length,
      c ≠ '\n' := by
    rw [List.take_left]
    exact hnl
  have hfail : ∀ j, 1 ≤ j → j < (cv0 ++ [clast]).length →
      tailWholeDollar (((cv0 ++ [clast]) ++ ' ' :: '$' :: N).drop j) = none := by
    intro j hj1 hjk
    have hjcv0 : j ≤ cv0.length := by
      simp only [List.length_append, List.length_cons, List.length_nil] at hjk
      omega
    have hdropj : ((cv0 ++ [clast]) ++ ' ' :: '$' :: N).drop j =
        (cv0 ++ [clast]).drop j ++ ' ' :: '$' :: N :=
      List.drop_append_of_le_length (by
        simp only [List.length_append, List.length_cons, List.length_nil]
        omega)
    have hu : (cv0 ++ [clast]).drop j = cv0.drop j ++ [clast] :=
      List.drop_append_of_le_length hjcv0
    have hlastmem : clast ∈ (cv0 ++ [clast]).drop j := by
      rw [hu]
      simp
    rcases hdwu : ((cv0 ++ [clast]).drop j).dropWhile wsB with _ | ⟨c₁, rest₁⟩
    · exfalso
      have := List.dropWhile_eq_nil_iff.mp hdwu clast hlastmem
      rw [hlast] at this
      cases this
    · have hc₁ : c₁ ≠ '$' := by
        refine hcv c₁ ?_
        have hc₁mem : c₁ ∈ ((cv0 ++ [clast]).drop j).dropWhile wsB := by
          rw [hdwu]
          simp
        exact List.mem_of_mem_drop ((List.dropWhile_sublist wsB).subset hc₁mem)
      rw [hdropj]
      exact tailWholeDollar_mid_fail hdwu hc₁
  have hT : tailWholeDollar (((cv0 ++ [clast]) ++ ' ' :: '$' :: N).drop
      (cv0 ++ [clast]).length) = some N := by
    rw [List.drop_left]
    exact tailWholeDollar_at_amount hN hNne
  have hres := lazySplit_build hk1 hkle htake hfail hT
  rw [List.take_left] at hres
  exact hres

/-- C10: when a cleaned line has the shape `vendor $N` with `N` a bare 3- or
4-digit number and a dot- and dollar-free vendor ending in a non-space
character, `_parse_line` matches the `whole_dollar` pattern (the four
higher-confidence patterns cannot match a dot-free line) - but the returned
amount is `N/100`, not the whole-dollar value `N`, because
`_clean_amount_string` inserts an implied decimal point into the captured
digits. -/
theorem C10_whole_dollar_cents :
    ∀ (line : String) (n : Nat) (cv0 : List Char) (clast : Char) (N : List Char),
      (clean_line line).data = (cv0 ++ [clast]) ++ ' ' :: '$' :: N →
      wsB clast = false →
      (∀ c ∈ cv0 ++ [clast], c ≠ '$' ∧ c ≠ '.') →
      should_ignore_line (clean_line line) = false →
      clean_vendor_name ⟨cv0 ++ [clast]⟩ ≠ "" →
      (∀ c ∈ N, isDigitB c = true) →
      (N.length = 3 ∨ N.length = 4) →
      1 ≤ natOfDigits N →
      parse_line line n = .ok (some ⟨n, line, clean_vendor_name ⟨cv0 ++ [clast]⟩,
        some (mkRat (natOfDigits N) 100), mkRat 7 10, "whole_dollar"⟩) ∧
      mkRat (natOfDigits N) 100 ≠ (natOfDigits N : ℚ) := by
  intro line n cv0 clast N hcl hlast hcv hig hv hdig hlen hpos
  have hNne : N ≠ [] := by
    intro h0
    rw [h0] at hlen
    simp at hlen
  have hnodot : '.' ∉ (clean_line line).data := by
    rw [hcl]
    intro hm
    rcases List.mem_append.mp hm with h1 | h1
    · exact (hcv '.' h1).2 rfl
    · rcases List.mem_cons.mp h1 with h2 | h2
      · cases h2
      · rcases List.mem_cons.mp h2 with h3 | h3
        · cases h3
        · exact absurd (hdig '.' h3) (by decide)
  have hnl : ∀ c ∈ cv0 ++ [clast], c ≠ '\n' := by
    intro c hc
    refine clean_line_no_newline line c ?_
    rw [hcl]
    exact List.mem_append_left _ hc
  have hcvd : ∀ c ∈ cv0 ++ [clast], c ≠ '$' := fun c hc => (hcv c hc).1
  have hm1 : lazySplit tailCurrencyCommas (clean_line line).data = none :=
    lazySplit_fail_nodot (fun t g2 h => (tailCurrencyCommas_sound h).2) hnodot
  have hm2 : lazySplit tailUsd (clean_line line).data = none :=
    lazySplit_fail_nodot (fun t g2 h => (tailUsd_sound h).2) hnodot
  have hm3 : lazySplit tailSimpleCurrency (clean_line line).data = none :=
    lazySplit_fail_nodot (fun t g2 h => (tailSimpleCurrency_sound h).2) hnodot
  have hm4 : lazySplit tailDecimalAmount (clean_line line).data = none :=
    lazySplit_fail_nodot (fun t g2 h => (tailDecimalAmount_sound h).2) hnodot
  have hm5 : lazySplit tailWholeDollar (clean_line line).data =
      some (cv0 ++ [clast], N) := by
    rw [hcl]
    exact wholeDollar_matches hlast hcvd hnl hdig hNne
  have hpa : parse_amount ⟨N⟩ = .ok (mkRat (natOfDigits N) 100) :=
    parse_amount_digits34 hdig hlen hpos
  constructor
  · unfold parse_line
    rw [if_neg (by simp [hig])]
    rw [show sorted_patterns = default_patterns from rfl]
    unfold default_patterns
    simp only [patLoop, hm1, hm2, hm3, hm4, hm5]
    rw [if_neg hv, hpa]
  · have hq1 : (1 : ℚ) ≤ ((natOfDigits N : ℚ)) := by exact_mod_cast hpos
    have hqval : (mkRat (natOfDigits N) 100 : ℚ) = (natOfDigits N : ℚ) / 100 := by
      rw [Rat.mkRat_eq_div]
      push_cast
      ring
    rw [hqval]
    intro heq
    have h0 : (natOfDigits N : ℚ) / 100 - (natOfDigits N : ℚ) = 0 := by rw [heq]; ring
    have h1 : (natOfDigits N : ℚ) = 0 := by linarith
    linarith

theorem C10_witness :
    parse_line "Item $500" 1 = .ok (some ⟨1, "Item $500",
      clean_vendor_name ⟨['I', 't', 'e'] ++ ['m']⟩,
      some (mkRat (natOfDigits ['5', '0', '0']) 100), mkRat 7 10, "whole_dollar"⟩) ∧
    mkRat (natOfDigits ['5', '0', '0']) 100 ≠ (natOfDigits ['5', '0', '0'] : ℚ) :=
  C10_whole_dollar_cents "Item $500" 1 ['I', 't', 'e'] 'm' ['5', '0', '0']
    (by decide) (by decide) (by decide) (by decide) (by decide) (by decide)
    (by decide) (by decide)

end ReceiptCore
